import Mathlib

/-!
# ComiCops feature extraction: colour layout and texture descriptors

A shallow embedding of `src/featureext/color_layout.c` and
`src/featureext/texture.c`, followed by theorems about it.

Conventions of the embedding:

* C `double` values are elements of a linearly ordered field `K` with a floor
  function (`ℚ` for evaluation, `ℝ` for the trigonometric statements); rounding of
  IEEE-754 arithmetic is not modelled.
* C `int` values that hold sizes, counters and offsets are natural numbers; values
  that can be negative are integers. Arithmetic on them is exact: images whose
  pixel count does not fit an `int` are outside the model.
* A C buffer (pointer plus element count) is a `List`; a pointer into a buffer is
  an offset. Reading is `rd` and writing is `List.set`.
* An integer division or remainder by zero is undefined behaviour in C; functions
  that can reach one return `Option`, with `none` for that outcome.
* The functions of `libm` (`cos`, `sqrt`, the constant `M_PI`) and of FreeImage
  (`FreeImage_Rescale`) are parameters.
-/

namespace ComiCops

/-! ## Loops and buffers -/

/-- The loop `for (i = 0; i < n; i++) s = body i s`. -/
def for_loop {σ : Type} (n : Nat) (body : Nat → σ → σ) (s : σ) : σ :=
  match n with
  | 0 => s
  | m + 1 => body m (for_loop m body s)

/-- The loop `for (i = 0; i < n; i++) body` whose body may `break`: the body returns
the new state and whether it left the loop. -/
def for_loop_brk {σ : Type} (n : Nat) (body : Nat → σ → σ × Bool) (s : σ) : σ × Bool :=
  match n with
  | 0 => (s, false)
  | m + 1 =>
    let r := for_loop_brk m body s
    if r.2 then r else body m r.1

/-- Read cell `i` of a buffer (a cell outside the buffer reads as zero). -/
def rd {α : Type} [Zero α] (buf : List α) (i : Nat) : α := buf.getD i 0

/-- Conversion of a `double` to an integer type: truncation toward zero. -/
def c_trunc {K : Type} [LinearOrderedField K] [FloorRing K] (x : K) : Int :=
  if 0 ≤ x then ⌊x⌋ else ⌈x⌉

/-! ## Data model -/

/-- A pixel in YCbCr colour space: `struct pixel_ycbcr`. -/
structure pixel_ycbcr (K : Type) where
  y : K
  cb : K
  cr : K

instance {K : Type} [Zero K] : Zero (pixel_ycbcr K) := ⟨⟨0, 0, 0⟩⟩

section Code

variable {K : Type} [LinearOrderedField K]

/-! ## color_layout.c -/

/-- Convert RGB to YCbCr (SDTV, BT.601). -/
def rgb2ycbcr (r g b : Int) : pixel_ycbcr K :=
  { y := 0.299 * (r : K) + 0.587 * (g : K) + 0.114 * (b : K)
    cb := -0.14713 * (r : K) - 0.28886 * (g : K) + 0.436 * (b : K)
    cr := 0.615 * (r : K) - 0.51499 * (g : K) - 0.10001 * (b : K) }

/-- Convert YCbCr back to RGB; the assignments to `int` truncate. -/
def ycbcr2rgb [FloorRing K] (p : pixel_ycbcr K) : Int × Int × Int :=
  let y := p.y
  let cb := p.cb
  let cr := p.cr
  (c_trunc (y + 1.13983 * cr),
   c_trunc (y - 0.39465 * cb - 0.58060 * cr),
   c_trunc (y + 2.03211 * cb))

/-- The macro `COEFFS`, one of its two assignments: `1/sqrt(2)` at index 0, else 1. -/
def COEFFS (sqrt : K → K) (u : Nat) : K :=
  if u = 0 then 1.0 / sqrt 2.0 else 1.0

/-- The forward transform `dct`: `(dct cos sqrt M_PI input) v u` is `output[v][u]`. -/
def dct (cos sqrt : K → K) (M_PI : K) (input : Nat → Nat → K) (v u : Nat) : K :=
  let Cu := COEFFS sqrt u
  let Cv := COEFFS sqrt v
  let z : K :=
    for_loop 8 (fun y z =>
      for_loop 8 (fun x z =>
        let s := input x y
        let q := s *
          cos ((2 * x + 1 : Nat) * (u : K) * M_PI / 16.0) *
          cos ((2 * y + 1 : Nat) * (v : K) * M_PI / 16.0)
        z + q) z) 0.0
  0.25 * Cu * Cv * z

/-- The inverse transform `idct`: `(idct cos sqrt M_PI input) x y` is `output[x][y]`. -/
def idct (cos sqrt : K → K) (M_PI : K) (input : Nat → Nat → K) (x y : Nat) : K :=
  let z : K :=
    for_loop 8 (fun v z =>
      for_loop 8 (fun u z =>
        let Cu := COEFFS sqrt u
        let Cv := COEFFS sqrt v
        let S := input v u
        let q := Cu * Cv * S *
          cos ((2 * x + 1 : Nat) * (u : K) * M_PI / 16.0) *
          cos ((2 * y + 1 : Nat) * (v : K) * M_PI / 16.0)
        z + q) z) 0.0
  let z := z / 4.0
  let z := if z > 255.0 then 255.0 else z
  let z := if z < 0 then 0.0 else z
  z

/-- The innermost loop of `subsampling_ycbcr`: add `block_w` pixels starting at `p`
to the accumulators `y`, `cb`, `cr`; returns the accumulators and the advanced `p`. -/
def subsampling_block (ycbcr : List (pixel_ycbcr K)) (block_w : Nat)
    (p : Nat) : pixel_ycbcr K × Nat :=
  for_loop block_w (fun _ (a : pixel_ycbcr K × Nat) =>
      ({ y := a.1.y + (rd ycbcr a.2).y
         cb := a.1.cb + (rd ycbcr a.2).cb
         cr := a.1.cr + (rd ycbcr a.2).cr }, a.2 + 1))
    ({ y := 0, cb := 0, cr := 0 }, p)

/-- State of the line scan of `subsampling_ycbcr`: the subsampled buffer and the
pointers `p` and `sp`. -/
structure scan_state (K : Type) where
  sub : List (pixel_ycbcr K)
  p : Nat
  sp : Nat

/-- The line scan of `subsampling_ycbcr`: merge each `block_w` pixels of the line at
`line` into one subpixel of the line at `subline`. -/
def subsampling_scan (ycbcr : List (pixel_ycbcr K)) (block_w sub_width : Nat)
    (sub : List (pixel_ycbcr K)) (line subline : Nat) : List (pixel_ycbcr K) :=
  (for_loop sub_width (fun _ (st : scan_state K) =>
      let a := subsampling_block ycbcr block_w st.p
      { sub := st.sub.set st.sp
          { y := (rd st.sub st.sp).y + a.1.y
            cb := (rd st.sub st.sp).cb + a.1.cb
            cr := (rd st.sub st.sp).cr + a.1.cr }
        p := a.2
        sp := st.sp + 1 })
    { sub := sub, p := line, sp := subline }).sub

/-- The scaling loop of `subsampling_ycbcr`: multiply the subpixels of the line at
`subline` by `f_blkpx`. -/
def subsampling_scale (f_blkpx : K) (sub_width : Nat)
    (sub : List (pixel_ycbcr K)) (subline : Nat) : List (pixel_ycbcr K) :=
  (for_loop sub_width (fun _ (st : scan_state K) =>
      { sub := st.sub.set st.sp
          { y := (rd st.sub st.sp).y * f_blkpx
            cb := (rd st.sub st.sp).cb * f_blkpx
            cr := (rd st.sub st.sp).cr * f_blkpx }
        p := st.p
        sp := st.sp + 1 })
    { sub := sub, p := 0, sp := subline }).sub

/-- State of the row loop of `subsampling_ycbcr`. -/
structure sub_state (K : Type) where
  subycbcr : List (pixel_ycbcr K)
  subline : Nat
  line : Nat
  sy : Nat

/-- The body of the row loop of `subsampling_ycbcr`, for row `y`. -/
def subsampling_row (ycbcr : List (pixel_ycbcr K)) (width sub_width sub_height : Nat)
    (block_w block_h : Nat) (f_blkpx : K) (y : Nat) (st : sub_state K) :
    sub_state K × Bool :=
  let sub := subsampling_scan ycbcr block_w sub_width st.subycbcr st.line st.subline
  if (y + 1) % block_h = 0 then
    let sub := subsampling_scale f_blkpx sub_width sub st.subline
    let subline := st.subline + sub_width
    let sy := st.sy + 1
    if sy = sub_height then
      ({ subycbcr := sub, subline := subline, line := st.line, sy := sy }, true)
    else
      ({ subycbcr := sub, subline := subline, line := st.line + width, sy := sy }, false)
  else
    ({ subycbcr := sub, subline := st.subline, line := st.line + width, sy := st.sy }, false)

/-- Subsample a YCbCr image to `sub_width` x `sub_height` by block averaging.
`none` is the integer division by zero of `width / sub_width`, `height / sub_height`
or, once the row loop runs, `(y + 1) % block_h`. -/
def subsampling_ycbcr (ycbcr : List (pixel_ycbcr K)) (width height : Nat)
    (sub_width sub_height : Nat) : Option (List (pixel_ycbcr K)) :=
  if sub_width = 0 ∨ sub_height = 0 then none
  else
    let block_w := width / sub_width
    let block_h := height / sub_height
    let n_blkpx := block_w * block_h
    let f_blkpx : K := 1.0 / (n_blkpx : K)
    let subycbcr : List (pixel_ycbcr K) :=
      List.replicate (sub_width * sub_height) { y := 0, cb := 0, cr := 0 }
    if block_h = 0 ∧ 0 < height then none
    else
      some (for_loop_brk height
        (subsampling_row ycbcr width sub_width sub_height block_w block_h f_blkpx)
        { subycbcr := subycbcr, subline := 0, line := 0, sy := 0 }).1.subycbcr

/-- In-place DCT of an 8 x 8 YCbCr image, one component at a time. -/
def ycbcr_dct (cos sqrt : K → K) (M_PI : K) (ycbcr : List (pixel_ycbcr K)) :
    List (pixel_ycbcr K) :=
  let y_data : Nat → Nat → K := fun x y => (rd ycbcr (x + (y <<< 3))).y
  let cb_data : Nat → Nat → K := fun x y => (rd ycbcr (x + (y <<< 3))).cb
  let cr_data : Nat → Nat → K := fun x y => (rd ycbcr (x + (y <<< 3))).cr
  let y_dct := dct cos sqrt M_PI y_data
  let cb_dct := dct cos sqrt M_PI cb_data
  let cr_dct := dct cos sqrt M_PI cr_data
  for_loop 8 (fun y ycbcr =>
    for_loop 8 (fun x ycbcr =>
      ycbcr.set (x + (y <<< 3)) { y := y_dct x y, cb := cb_dct x y, cr := cr_dct x y })
      ycbcr) ycbcr

/-- State of `ycbcr_zigzag`: the output buffer and the counter `i`. -/
structure zz_state (α : Type) where
  zigzag : List α
  i : Nat

/-- The macro `ZZ(k)`: `zigzag[i++] = ycbcr[k]`. -/
def ZZ {α : Type} [Zero α] (ycbcr : List α) (k : Nat) (st : zz_state α) : zz_state α :=
  { zigzag := st.zigzag.set st.i (rd ycbcr k), i := st.i + 1 }

/-- Rearrange an 8 x 8 image as a vector in zig-zag order. -/
def ycbcr_zigzag {α : Type} [Zero α] (ycbcr : List α) : List α :=
  let st : zz_state α := { zigzag := List.replicate 64 0, i := 0 }
  let st := ZZ ycbcr 0 st; let st := ZZ ycbcr 1 st; let st := ZZ ycbcr 8 st
  let st := ZZ ycbcr 16 st; let st := ZZ ycbcr 9 st; let st := ZZ ycbcr 2 st
  let st := ZZ ycbcr 3 st; let st := ZZ ycbcr 10 st; let st := ZZ ycbcr 17 st
  let st := ZZ ycbcr 24 st; let st := ZZ ycbcr 32 st; let st := ZZ ycbcr 25 st
  let st := ZZ ycbcr 18 st; let st := ZZ ycbcr 11 st; let st := ZZ ycbcr 4 st
  let st := ZZ ycbcr 5 st; let st := ZZ ycbcr 12 st
  let st := ZZ ycbcr 19 st; let st := ZZ ycbcr 26 st; let st := ZZ ycbcr 33 st
  let st := ZZ ycbcr 40 st; let st := ZZ ycbcr 48 st; let st := ZZ ycbcr 41 st
  let st := ZZ ycbcr 34 st; let st := ZZ ycbcr 27 st
  let st := ZZ ycbcr 20 st; let st := ZZ ycbcr 13 st; let st := ZZ ycbcr 6 st
  let st := ZZ ycbcr 7 st; let st := ZZ ycbcr 14 st; let st := ZZ ycbcr 21 st
  let st := ZZ ycbcr 28 st; let st := ZZ ycbcr 35 st
  let st := ZZ ycbcr 42 st; let st := ZZ ycbcr 49 st; let st := ZZ ycbcr 56 st
  let st := ZZ ycbcr 57 st; let st := ZZ ycbcr 50 st; let st := ZZ ycbcr 43 st
  let st := ZZ ycbcr 36 st; let st := ZZ ycbcr 29 st
  let st := ZZ ycbcr 22 st; let st := ZZ ycbcr 15 st; let st := ZZ ycbcr 23 st
  let st := ZZ ycbcr 30 st; let st := ZZ ycbcr 37 st; let st := ZZ ycbcr 44 st
  let st := ZZ ycbcr 51 st; let st := ZZ ycbcr 58 st
  let st := ZZ ycbcr 59 st; let st := ZZ ycbcr 52 st; let st := ZZ ycbcr 45 st
  let st := ZZ ycbcr 38 st; let st := ZZ ycbcr 31 st; let st := ZZ ycbcr 39 st
  let st := ZZ ycbcr 46 st; let st := ZZ ycbcr 53 st
  let st := ZZ ycbcr 60 st; let st := ZZ ycbcr 61 st; let st := ZZ ycbcr 54 st
  let st := ZZ ycbcr 47 st; let st := ZZ ycbcr 55 st; let st := ZZ ycbcr 62 st
  let st := ZZ ycbcr 63 st
  st.zigzag

/-- Scale the first `len` elements of a vector by the reciprocal of their maximum. -/
def normalize_vector (vec : List K) (len : Nat) : List K :=
  if len = 0 then vec
  else
    let max := rd vec 0
    let max := for_loop (len - 1) (fun j max =>
      let i := j + 1
      if rd vec i > max then rd vec i else max) max
    let fac := 1 / max
    for_loop len (fun i vec => vec.set i (rd vec i * fac)) vec

/-- State of `grayscale_to_binmap`: the buffer and the pointer `p`. -/
structure bin_state where
  buf : List Nat
  p : Nat

/-- Convert a grayscale image to a binary image in place, with the given threshold. -/
def grayscale_to_binmap (grayscale : List Nat) (width height : Nat) (threshold : Int) :
    List Nat :=
  let n_px := width * height
  (for_loop n_px (fun _ (st : bin_state) =>
      { buf := st.buf.set st.p (if ((rd st.buf st.p : Nat) : Int) > threshold then 1 else 0)
        p := st.p + 1 })
    { buf := grayscale, p := 0 }).buf

/-- State of the row loop of `convolve`: the pointer `line` and the running `sum`. -/
structure conv_state where
  line : Nat
  sum : Int

/-- The feature `F = [sum |N(i,j) * tmpmat|] / (M * N)` of a binary bitmap. -/
def convolve (binmap : List Nat) (width height : Nat)
    (tmpmat : Matrix (Fin 3) (Fin 3) Int) : K :=
  let st := for_loop (height - 2) (fun _ (st : conv_state) =>
      let px0 := st.line
      let px1 := px0 + width
      let px2 := px1 + width
      { sum := for_loop (width - 2) (fun i sum =>
          let cx := i + 1
          let l := cx - 1
          let m := cx
          let r := cx + 1
          let val : Int :=
            ((rd binmap (px0 + l) : Nat) : Int) * tmpmat 0 0
              + ((rd binmap (px0 + m) : Nat) : Int) * tmpmat 0 1
              + ((rd binmap (px0 + r) : Nat) : Int) * tmpmat 0 2
              + ((rd binmap (px1 + l) : Nat) : Int) * tmpmat 1 0
              + ((rd binmap (px1 + m) : Nat) : Int) * tmpmat 1 1
              + ((rd binmap (px1 + r) : Nat) : Int) * tmpmat 1 2
              + ((rd binmap (px2 + l) : Nat) : Int) * tmpmat 2 0
              + ((rd binmap (px2 + m) : Nat) : Int) * tmpmat 2 1
              + ((rd binmap (px2 + r) : Nat) : Int) * tmpmat 2 2
          let val := if val > 0 then val else -val
          sum + val) st.sum
        line := st.line + width })
    { line := 0, sum := 0 }
  (st.sum : K) / ((width * height : Nat) : K)

/-- Feature extraction with the given threshold and kernel: copy the bitmap,
threshold the copy, convolve it. -/
def extract_feature (bitmap : List Nat) (width height : Nat) (threshold : Int)
    (tmpmat : Matrix (Fin 3) (Fin 3) Int) : K :=
  let n_px := width * height
  let bin := bitmap.take n_px
  let bin := grayscale_to_binmap bin width height threshold
  let val : K := convolve bin width height tmpmat
  val

/-- State of the loop of `do_extraction`: the output buffer and `threshold`. -/
structure thr_state (K : Type) where
  out_vec : List K
  threshold : Int

/-- One feature per threshold step, written to `out_vec[0 .. threshold_steps)`, the
pointer `out_vec` being the buffer and the offset `off`. `none` is the integer
division by zero of `256 / threshold_steps`. -/
def do_extraction (bitmap : List Nat) (width height : Nat) (threshold_steps : Nat)
    (tmpmat : Matrix (Fin 3) (Fin 3) Int) (out_vec : List K) (off : Nat) :
    Option (List K) :=
  if threshold_steps = 0 then none
  else
    let delta : Int := 256 / (threshold_steps : Int)
    let threshold := delta
    some (for_loop threshold_steps (fun i (st : thr_state K) =>
        { out_vec := st.out_vec.set (off + i)
            (extract_feature bitmap width height st.threshold tmpmat)
          threshold := st.threshold + delta })
      { out_vec := out_vec, threshold := threshold }).out_vec

/-- The vertical-edge kernel `tmpmatA` of `fext_texture`. -/
def tmpmatA : Matrix (Fin 3) (Fin 3) Int :=
  !![1, 0, -1;
     1, 0, -1;
     1, 0, -1]

/-- The horizontal-edge kernel `tmpmatB` of `fext_texture`. -/
def tmpmatB : Matrix (Fin 3) (Fin 3) Int :=
  !![-1, -1, -1;
     0, 0, 0;
     1, 1, 1]

end Code

/-! ## Vocabulary of the statements -/

section Vocabulary

variable {K : Type} [LinearOrderedField K]

/-- The index sequence of the specification, section 4.4. -/
def spec_zigzag_order : List Nat :=
  [0, 1, 8, 16, 9, 2, 3, 10, 17, 24, 32, 25, 18, 11, 4, 5, 12, 19, 26, 33, 40, 48, 41, 34,
   27, 20, 13, 6, 7, 14, 21, 28, 35, 42, 49, 56, 57, 50, 43, 36, 29, 22, 15, 23, 30, 37, 44,
   51, 58, 59, 52, 45, 38, 31, 39, 46, 53, 60, 61, 54, 47, 55, 62, 63]

/-- The response of the kernel at the interior pixel `(cx, cy)`, as the
specification writes it. -/
def spec_response (b : List Nat) (W : Nat) (k : Matrix (Fin 3) (Fin 3) Int)
    (cx cy : Nat) : Int :=
  |∑ i : Fin 3, ∑ j : Fin 3,
    k i j * ((rd b ((cy - 1 + i.val) * W + (cx - 1 + j.val)) : Nat) : Int)|

/-- The value `val` that `convolve` adds to `sum` at column `cx = i + 1`, the
pointer `line` being at the row above. -/
def conv_val (binmap : List Nat) (width : Nat) (tmpmat : Matrix (Fin 3) (Fin 3) Int)
    (line i : Nat) : Int :=
  let px0 := line
  let px1 := px0 + width
  let px2 := px1 + width
  let cx := i + 1
  let l := cx - 1
  let m := cx
  let r := cx + 1
  let val : Int :=
    ((rd binmap (px0 + l) : Nat) : Int) * tmpmat 0 0
      + ((rd binmap (px0 + m) : Nat) : Int) * tmpmat 0 1
      + ((rd binmap (px0 + r) : Nat) : Int) * tmpmat 0 2
      + ((rd binmap (px1 + l) : Nat) : Int) * tmpmat 1 0
      + ((rd binmap (px1 + m) : Nat) : Int) * tmpmat 1 1
      + ((rd binmap (px1 + r) : Nat) : Int) * tmpmat 1 2
      + ((rd binmap (px2 + l) : Nat) : Int) * tmpmat 2 0
      + ((rd binmap (px2 + m) : Nat) : Int) * tmpmat 2 1
      + ((rd binmap (px2 + r) : Nat) : Int) * tmpmat 2 2
  if val > 0 then val else -val

/-- Componentwise addition of pixels. -/
instance : Add (pixel_ycbcr K) :=
  ⟨fun p q => { y := p.y + q.y, cb := p.cb + q.cb, cr := p.cr + q.cr }⟩

/-- Pixels under componentwise addition. -/
instance : AddCommMonoid (pixel_ycbcr K) where
  add_assoc a b c := by
    show pixel_ycbcr.mk (a.y + b.y + c.y) (a.cb + b.cb + c.cb) (a.cr + b.cr + c.cr)
      = pixel_ycbcr.mk (a.y + (b.y + c.y)) (a.cb + (b.cb + c.cb)) (a.cr + (b.cr + c.cr))
    rw [add_assoc a.y, add_assoc a.cb, add_assoc a.cr]
  zero_add a := by
    show pixel_ycbcr.mk (0 + a.y) (0 + a.cb) (0 + a.cr) = a
    rw [zero_add, zero_add, zero_add]
  add_zero a := by
    show pixel_ycbcr.mk (a.y + 0) (a.cb + 0) (a.cr + 0) = a
    rw [add_zero, add_zero, add_zero]
  add_comm a b := by
    show pixel_ycbcr.mk (a.y + b.y) (a.cb + b.cb) (a.cr + b.cr)
      = pixel_ycbcr.mk (b.y + a.y) (b.cb + a.cb) (b.cr + a.cr)
    rw [add_comm a.y, add_comm a.cb, add_comm a.cr]
  nsmul := nsmulRec

/-- Multiply the three components of a pixel by a factor. -/
def pixel_scale (p : pixel_ycbcr K) (f : K) : pixel_ycbcr K :=
  { y := p.y * f, cb := p.cb * f, cr := p.cr * f }

/-- One iteration of the line scan of `subsampling_ycbcr`. -/
def scan_step (ycbcr : List (pixel_ycbcr K)) (block_w : Nat) (st : scan_state K) :
    scan_state K :=
  { sub := st.sub.set st.sp
      { y := (rd st.sub st.sp).y + (subsampling_block ycbcr block_w st.p).1.y
        cb := (rd st.sub st.sp).cb + (subsampling_block ycbcr block_w st.p).1.cb
        cr := (rd st.sub st.sp).cr + (subsampling_block ycbcr block_w st.p).1.cr }
    p := (subsampling_block ycbcr block_w st.p).2
    sp := st.sp + 1 }

/-- One iteration of the scaling loop of `subsampling_ycbcr`. -/
def scale_step (f_blkpx : K) (st : scan_state K) : scan_state K :=
  { sub := st.sub.set st.sp
      { y := (rd st.sub st.sp).y * f_blkpx
        cb := (rd st.sub st.sp).cb * f_blkpx
        cr := (rd st.sub st.sp).cr * f_blkpx }
    p := st.p
    sp := st.sp + 1 }

/-- Sum of the source pixels of the first `r` rows of block `(sx, sy)`. -/
def block_sum (ycbcr : List (pixel_ycbcr K)) (W bw bh sx sy r : Nat) : pixel_ycbcr K :=
  ∑ j ∈ Finset.range r, ∑ i ∈ Finset.range bw, rd ycbcr ((sy * bh + j) * W + sx * bw + i)

/-- Content of the subsampled buffer when the blocks of the rows above `sy` are
averaged and `r` source rows of the blocks of row `sy` are accumulated. -/
def sub_content (ycbcr : List (pixel_ycbcr K)) (W subW subH bw bh : Nat) (f : K)
    (sy r : Nat) (sub : List (pixel_ycbcr K)) : Prop :=
  sub.length = subW * subH
  ∧ ∀ sx, sx < subW → ∀ sy', sy' < subH →
      rd sub (sy' * subW + sx)
        = if sy' < sy then pixel_scale (block_sum ycbcr W bw bh sx sy' bh) f
          else if sy' = sy then block_sum ycbcr W bw bh sx sy' r
          else 0

/-- A 7 x 5 source grid for the examples: pixel `i` is `(i, 2 i, 3 i)`. -/
def sample_ycbcr : List (pixel_ycbcr ℚ) :=
  (List.range 35).map (fun i => { y := i, cb := 2 * i, cr := 3 * i })

/-- The transposed grid: `b` has width `W` and height `H`; the result has width `H` and
height `W`, its cell at column `c` and row `r` being the cell of `b` at column `r` and
row `c`. -/
def transpose_grid (b : List Nat) (W H : Nat) : List Nat :=
  (List.range (W * H)).map (fun idx => rd b ((idx % H) * W + idx / H))

/-- Entry `(u, x)` of the 8-point transform basis: `C(u) / 2 * cos ((2 x + 1) u pi / 16)`. -/
def dct_basis {K : Type} [LinearOrderedField K] (cos sqrt : K → K) (M_PI : K) (u x : Nat) : K :=
  COEFFS sqrt u / 2 * cos ((2 * x + 1 : Nat) * (u : K) * M_PI / 16.0)

/-- The transform basis as an 8 x 8 matrix, rows being frequencies. -/
def dct_matrix {K : Type} [LinearOrderedField K] (cos sqrt : K → K) (M_PI : K) :
    Matrix (Fin 8) (Fin 8) K :=
  Matrix.of (fun u x => dct_basis cos sqrt M_PI u.val x.val)

/-- An 8 x 8 array `a[i][j]` as a matrix. -/
def grid_matrix {K : Type} (g : Nat → Nat → K) : Matrix (Fin 8) (Fin 8) K :=
  Matrix.of (fun i j => g i.val j.val)

/-- An 8 x 8 grid for the examples: `g[x][y] = 300 x + 7 y - 40`. -/
def sample_grid {K : Type} [LinearOrderedField K] (x y : Nat) : K :=
  300 * (x : K) + 7 * (y : K) - 40

/-- A grid whose first column is 1 and whose other columns are 0, in all channels. -/
def column_grid (K : Type) [LinearOrderedField K] : List (pixel_ycbcr K) :=
  (List.range 64).map (fun i => if i % 8 = 0 then { y := 1, cb := 1, cr := 1 } else 0)

end Vocabulary

end ComiCops

/-! ## Lemmas on loops and buffers -/

namespace ComiCops

theorem for_loop_zero {σ : Type} (body : Nat → σ → σ) (s : σ) :
    for_loop 0 body s = s := rfl

theorem for_loop_succ {σ : Type} (n : Nat) (body : Nat → σ → σ) (s : σ) :
    for_loop (n + 1) body s = body n (for_loop n body s) := rfl

/-- Invariant rule for `for_loop`. -/
theorem for_loop_inv {σ : Type} (P : Nat → σ → Prop) (n : Nat) (body : Nat → σ → σ)
    (s : σ) (h0 : P 0 s) (hstep : ∀ i t, i < n → P i t → P (i + 1) (body i t)) :
    P n (for_loop n body s) := by
  induction n with
  | zero => exact h0
  | succ m ih =>
    rw [for_loop_succ]
    exact hstep m _ (Nat.lt_succ_self m)
      (ih (fun i t hi hP => hstep i t (Nat.lt_succ_of_lt hi) hP))

theorem rd_set {α : Type} [Zero α] (l : List α) (i j : Nat) (a : α) :
    rd (l.set i a) j = if i = j ∧ j < l.length then a else rd l j := by
  unfold rd
  simp only [List.getD_eq_getElem?_getD, List.getElem?_set]
  by_cases hij : i = j
  · subst hij
    by_cases hi : i < l.length
    · simp [hi]
    · simp [hi, List.getElem?_eq_none (Nat.le_of_not_lt hi)]
  · simp [hij]

theorem rd_replicate {α : Type} [Zero α] (n i : Nat) : rd (List.replicate n (0 : α)) i = 0 := by
  unfold rd
  by_cases h : i < n
  · simp [List.getD_eq_getElem?_getD, List.getElem?_replicate, h]
  · simp [List.getD_eq_getElem?_getD, List.getElem?_replicate, h]

/-- Two buffers of one length that read alike are equal. -/
theorem ext_rd {α : Type} [Zero α] (l₁ l₂ : List α) (hlen : l₁.length = l₂.length)
    (h : ∀ i, i < l₁.length → rd l₁ i = rd l₂ i) : l₁ = l₂ := by
  apply List.ext_getElem hlen
  intro i h1 h2
  have := h i h1
  unfold rd at this
  simpa [List.getD_eq_getElem?_getD, List.getElem?_eq_getElem h1,
    List.getElem?_eq_getElem h2] using this

/-! ## Zig-zag order -/

/-- A run of `ZZ` steps fills the output buffer from the counter on. -/
theorem ZZ_foldl {α : Type} [Zero α] (g : List α) (ks : List Nat) :
    ∀ (pre : List α) (m : Nat), ks.length ≤ m →
      ks.foldl (fun st k => ZZ g k st)
          { zigzag := pre ++ List.replicate m 0, i := pre.length }
        = { zigzag := pre ++ ks.map (fun k => rd g k) ++ List.replicate (m - ks.length) 0
            i := pre.length + ks.length } := by
  induction ks with
  | nil => intro pre m _; simp
  | cons k ks ih =>
    intro pre m hm
    obtain ⟨m, rfl⟩ : ∃ m', m = m' + 1 := ⟨m - 1, by simp at hm; omega⟩
    have hstep : ZZ g k { zigzag := pre ++ List.replicate (m + 1) 0, i := pre.length }
        = { zigzag := (pre ++ [rd g k]) ++ List.replicate m 0
            i := (pre ++ [rd g k]).length } := by
      simp [ZZ, List.replicate_succ, List.set_append]
    rw [List.foldl_cons, hstep, ih (pre ++ [rd g k]) m (by simp at hm; omega)]
    simp [Nat.add_assoc, Nat.add_comm 1]

/-- C3: for every grid `g` (in particular every 64-cell grid), `ycbcr_zigzag g` is
the 64-element sequence whose `i`-th element is `g[s_i]`, `s` being the literal index
sequence of the specification; applied to the grid that stores its own row-major
index in each cell it returns that sequence. -/
theorem ycbcr_zigzag_literal {α : Type} [Zero α] (g : List α) :
    ycbcr_zigzag g = spec_zigzag_order.map (fun k => rd g k)
    ∧ (ycbcr_zigzag g).length = 64
    ∧ (∀ i, i < 64 → rd (ycbcr_zigzag g) i = rd g (rd spec_zigzag_order i))
    ∧ ycbcr_zigzag (List.range 64) = spec_zigzag_order := by
  have h1 : ycbcr_zigzag g = spec_zigzag_order.map (fun k => rd g k) := by
    have h := ZZ_foldl g spec_zigzag_order [] 64 (by decide)
    have h2 : ycbcr_zigzag g
        = (spec_zigzag_order.foldl (fun st k => ZZ g k st)
            { zigzag := [] ++ List.replicate 64 0, i := ([] : List α).length }).zigzag := rfl
    rw [h2, h]
    simp [spec_zigzag_order]
  refine ⟨h1, ?_, ?_, by decide⟩
  · rw [h1]; rfl
  · intro i hi
    rw [h1]
    interval_cases i <;> rfl

/-! ## Normalisation -/

section Normalize

variable {K : Type} [LinearOrderedField K]

end Normalize

/-! ## Convolution -/

section Conv

variable {K : Type} [LinearOrderedField K]

/-- An accumulating loop computes a sum. -/
theorem for_loop_sum {M : Type} [AddCommMonoid M] (n : Nat) (f : Nat → M) (s : M) :
    for_loop n (fun i acc => acc + f i) s = s + ∑ i ∈ Finset.range n, f i := by
  induction n with
  | zero => simp [for_loop_zero]
  | succ m ih => rw [for_loop_succ, ih, Finset.sum_range_succ, add_assoc]

theorem sum_Icc_one (n : Nat) (F : Nat → Int) :
    ∑ c ∈ Finset.Icc 1 n, F c = ∑ j ∈ Finset.range n, F (j + 1) := by
  rw [Finset.range_eq_Ico, Finset.sum_Ico_add' F 0 n 1]
  rfl

/-- The conditional negation of `convolve` is the absolute value. -/
theorem c_abs (v : Int) : (if v > 0 then v else -v) = |v| := by
  split
  · rename_i h; rw [abs_of_pos h]
  · rename_i h; rw [abs_of_nonpos (not_lt.1 h)]

/-- With `line` at row `j`, the value that `convolve` adds at column `i + 1` is the
response at the interior pixel `(i + 1, j + 1)`. -/
theorem conv_val_eq (b : List Nat) (W : Nat) (k : Matrix (Fin 3) (Fin 3) Int) (j i : Nat) :
    conv_val b W k (j * W) i = spec_response b W k (i + 1) (j + 1) := by
  unfold conv_val spec_response
  simp only [c_abs, Fin.sum_univ_three, Fin.val_zero, Fin.val_one, Fin.val_two,
    Nat.add_sub_cancel, Nat.add_zero]
  congr 1
  have e1 : (j + 1) * W + i = j * W + W + i := by ring
  have e2 : (j + 1) * W + (i + 1) = j * W + W + (i + 1) := by ring
  have e3 : (j + 1) * W + (i + 2) = j * W + W + (i + 1 + 1) := by ring
  have e4 : (j + 2) * W + i = j * W + W + W + i := by ring
  have e5 : (j + 2) * W + (i + 1) = j * W + W + W + (i + 1) := by ring
  have e6 : (j + 2) * W + (i + 2) = j * W + W + W + (i + 1 + 1) := by ring
  have e7 : j * W + (i + 2) = j * W + (i + 1 + 1) := by ring
  rw [e1, e2, e3, e4, e5, e6, e7]
  ring

/-- Closed form of `convolve`: the sum of the responses at the interior pixels
divided by the area of the whole grid. -/
theorem convolve_sum (b : List Nat) (W H : Nat) (k : Matrix (Fin 3) (Fin 3) Int) :
    (convolve b W H k : K)
      = ((∑ cy ∈ Finset.Icc 1 (H - 2), ∑ cx ∈ Finset.Icc 1 (W - 2),
            spec_response b W k cx cy : Int) : K) / ((W * H : Nat) : K) := by
  have hrows : ∀ n, for_loop n (fun _ (st : conv_state) =>
      ({ sum := for_loop (W - 2) (fun i sum => sum + conv_val b W k st.line i) st.sum
         line := st.line + W } : conv_state)) { line := 0, sum := 0 }
      = { line := n * W
          sum := ∑ j ∈ Finset.range n, ∑ i ∈ Finset.range (W - 2),
            spec_response b W k (i + 1) (j + 1) } := by
    intro n
    induction n with
    | zero => simp [for_loop_zero]
    | succ m ih =>
      rw [for_loop_succ, ih]
      simp only [for_loop_sum, Finset.sum_range_succ, conv_val_eq]
      congr 1
      ring
  have hconv : (convolve b W H k : K)
      = (((for_loop (H - 2) (fun _ (st : conv_state) =>
          ({ sum := for_loop (W - 2) (fun i sum => sum + conv_val b W k st.line i) st.sum
             line := st.line + W } : conv_state)) { line := 0, sum := 0 }).sum : Int) : K)
        / ((W * H : Nat) : K) := rfl
  rw [hconv, hrows]
  simp only [sum_Icc_one]

end Conv

/-! ## Texture sweep -/

section Tex

variable {K : Type} [LinearOrderedField K]

/-- The loop of `grayscale_to_binmap` thresholds the first `n` cells. -/
theorem binmap_loop_spec (g : List Nat) (thr : Int) (n : Nat) :
    (for_loop n (fun _ (st : bin_state) =>
        ({ buf := st.buf.set st.p (if ((rd st.buf st.p : Nat) : Int) > thr then 1 else 0)
           p := st.p + 1 } : bin_state)) { buf := g, p := 0 }).p = n
    ∧ (for_loop n (fun _ (st : bin_state) =>
        ({ buf := st.buf.set st.p (if ((rd st.buf st.p : Nat) : Int) > thr then 1 else 0)
           p := st.p + 1 } : bin_state)) { buf := g, p := 0 }).buf.length = g.length
    ∧ ∀ j, rd (for_loop n (fun _ (st : bin_state) =>
        ({ buf := st.buf.set st.p (if ((rd st.buf st.p : Nat) : Int) > thr then 1 else 0)
           p := st.p + 1 } : bin_state)) { buf := g, p := 0 }).buf j
        = if j < n ∧ j < g.length then (if ((rd g j : Nat) : Int) > thr then 1 else 0)
          else rd g j := by
  induction n with
  | zero => simp [for_loop_zero]
  | succ m ih =>
    obtain ⟨hp, hl, hr⟩ := ih
    rw [for_loop_succ]
    refine ⟨by simp [hp], by simp [hl], ?_⟩
    intro j
    simp only [rd_set, hp, hl, hr]
    by_cases hmj : m = j
    · subst hmj
      by_cases hm : m < g.length
      · simp [hm]
      · simp [hm]
    · have h1 : ¬ (m = j ∧ j < g.length) := fun h => hmj h.1
      rw [if_neg h1]
      by_cases hj : j < m
      · have : j < m + 1 := by omega
        simp [hj, this]
      · have : ¬ j < m + 1 := by omega
        simp [hj, this]

/-- Thresholding keeps the length of the buffer. -/
theorem grayscale_to_binmap_length (g : List Nat) (W H : Nat) (thr : Int) :
    (grayscale_to_binmap g W H thr).length = g.length :=
  (binmap_loop_spec g thr (W * H)).2.1

/-- Thresholding replaces each of the first `W * H` cells by the comparison of its
value with the threshold. -/
theorem grayscale_to_binmap_rd (g : List Nat) (W H : Nat) (thr : Int) (j : Nat) :
    rd (grayscale_to_binmap g W H thr) j
      = if j < W * H ∧ j < g.length then (if ((rd g j : Nat) : Int) > thr then 1 else 0)
        else rd g j :=
  (binmap_loop_spec g thr (W * H)).2.2 j

/-- The loop of `do_extraction` writes the feature of threshold `(i + 1) * delta`
to cell `off + i` and leaves the other cells alone. -/
theorem do_extraction_loop_spec (bitmap : List Nat) (W H : Nat)
    (tmpmat : Matrix (Fin 3) (Fin 3) Int) (delta : Int) (out_vec : List K) (off n : Nat) :
    (for_loop n (fun i (st : thr_state K) =>
        ({ out_vec := st.out_vec.set (off + i) (extract_feature bitmap W H st.threshold tmpmat)
           threshold := st.threshold + delta } : thr_state K))
      { out_vec := out_vec, threshold := delta }).threshold = ((n : Int) + 1) * delta
    ∧ (for_loop n (fun i (st : thr_state K) =>
        ({ out_vec := st.out_vec.set (off + i) (extract_feature bitmap W H st.threshold tmpmat)
           threshold := st.threshold + delta } : thr_state K))
      { out_vec := out_vec, threshold := delta }).out_vec.length = out_vec.length
    ∧ ∀ j, rd (for_loop n (fun i (st : thr_state K) =>
        ({ out_vec := st.out_vec.set (off + i) (extract_feature bitmap W H st.threshold tmpmat)
           threshold := st.threshold + delta } : thr_state K))
      { out_vec := out_vec, threshold := delta }).out_vec j
        = if off ≤ j ∧ j < off + n ∧ j < out_vec.length then
            extract_feature bitmap W H ((((j - off : Nat) : Int) + 1) * delta) tmpmat
          else rd out_vec j := by
  induction n with
  | zero =>
    refine ⟨by simp [for_loop_zero], by simp [for_loop_zero], ?_⟩
    intro j
    have : ¬ (off ≤ j ∧ j < off + 0 ∧ j < out_vec.length) := by omega
    rw [for_loop_zero, if_neg this]
  | succ m ih =>
    obtain ⟨ht, hl, hr⟩ := ih
    rw [for_loop_succ]
    refine ⟨by simp only [ht]; push_cast; ring, by simp [hl], ?_⟩
    intro j
    simp only [rd_set, hl, hr, ht]
    by_cases hmj : off + m = j
    · subst hmj
      by_cases hm : off + m < out_vec.length
      · have h2 : off ≤ off + m ∧ off + m < off + (m + 1) ∧ off + m < out_vec.length :=
          ⟨by omega, by omega, hm⟩
        simp [hm, h2]
      · have h2 : ¬ (off ≤ off + m ∧ off + m < off + (m + 1) ∧ off + m < out_vec.length) :=
          fun h => hm h.2.2
        have h3 : ¬ (off ≤ off + m ∧ off + m < off + m ∧ off + m < out_vec.length) :=
          fun h => hm h.2.2
        simp [hm, h2, h3]
    · have h1 : ¬ (off + m = j ∧ j < out_vec.length) := fun h => hmj h.1
      rw [if_neg h1]
      by_cases hj : off ≤ j ∧ j < off + m ∧ j < out_vec.length
      · have : off ≤ j ∧ j < off + (m + 1) ∧ j < out_vec.length := ⟨hj.1, by omega, hj.2.2⟩
        rw [if_pos hj, if_pos this]
      · have : ¬ (off ≤ j ∧ j < off + (m + 1) ∧ j < out_vec.length) := by omega
        rw [if_neg hj, if_neg this]


/-- On a grid that is uniform over its `W * H` cells, a zero-sum kernel has zero
response at every interior pixel, so `convolve` returns 0. -/
theorem convolve_uniform (b : List Nat) (W H v : Nat) (k : Matrix (Fin 3) (Fin 3) Int)
    (hb : ∀ i, i < W * H → rd b i = v) (hk : ∑ i : Fin 3, ∑ j : Fin 3, k i j = 0) :
    (convolve b W H k : K) = 0 := by
  rw [convolve_sum]
  have hz : ∀ cy ∈ Finset.Icc 1 (H - 2), ∀ cx ∈ Finset.Icc 1 (W - 2),
      spec_response b W k cx cy = 0 := by
    intro cy hcy cx hcx
    rw [Finset.mem_Icc] at hcy hcx
    have hidx : ∀ i j : Fin 3, rd b ((cy - 1 + i.val) * W + (cx - 1 + j.val)) = v := by
      intro i j
      apply hb
      have hi := i.isLt
      have hj := j.isLt
      have h1 : cy - 1 + i.val + 1 ≤ H := by omega
      have h2 : cx - 1 + j.val < W := by omega
      calc (cy - 1 + i.val) * W + (cx - 1 + j.val)
          < (cy - 1 + i.val) * W + W := by omega
        _ = (cy - 1 + i.val + 1) * W := by ring
        _ ≤ H * W := Nat.mul_le_mul_right W h1
        _ = W * H := Nat.mul_comm H W
    unfold spec_response
    simp only [hidx]
    rw [abs_eq_zero]
    have : ∑ i : Fin 3, ∑ j : Fin 3, k i j * (v : Int)
        = (∑ i : Fin 3, ∑ j : Fin 3, k i j) * (v : Int) := by
      simp only [Finset.sum_mul]
    rw [this, hk, zero_mul]
  rw [Finset.sum_eq_zero (fun cy hcy => Finset.sum_eq_zero (hz cy hcy))]
  simp

/-- The feature of a uniform grayscale grid is 0 for a zero-sum kernel. -/
theorem extract_feature_uniform (c W H : Nat) (thr : Int) (k : Matrix (Fin 3) (Fin 3) Int)
    (hk : ∑ i : Fin 3, ∑ j : Fin 3, k i j = 0) :
    (extract_feature (List.replicate (W * H) c) W H thr k : K) = 0 := by
  unfold extract_feature
  simp only []
  apply convolve_uniform _ W H (if (c : Int) > thr then 1 else 0) k _ hk
  intro i hi
  rw [grayscale_to_binmap_rd]
  have hlen : i < (List.take (W * H) (List.replicate (W * H) c)).length := by simpa using hi
  rw [if_pos ⟨hi, hlen⟩]
  have : rd (List.take (W * H) (List.replicate (W * H) c)) i = c := by
    simp [rd, List.getD_eq_getElem?_getD, List.getElem?_replicate, hi]
  rw [this]

/-- The vertical-edge kernel is zero-sum. -/
theorem tmpmatA_zero_sum : ∑ i : Fin 3, ∑ j : Fin 3, tmpmatA i j = 0 := by decide

/-- The horizontal-edge kernel is zero-sum. -/
theorem tmpmatB_zero_sum : ∑ i : Fin 3, ∑ j : Fin 3, tmpmatB i j = 0 := by decide

/-- What `do_extraction` returns: with at least one threshold step it returns a
buffer of the same length in which cell `off + i`, for `i < threshold_steps`, holds
the feature of threshold `(i + 1) * (256 / threshold_steps)`, the other cells being
unchanged. -/
theorem do_extraction_spec (bitmap : List Nat) (W H T : Nat)
    (tmpmat : Matrix (Fin 3) (Fin 3) Int) (out_vec : List K) (off : Nat) (hT : 1 ≤ T) :
    ∃ out, do_extraction bitmap W H T tmpmat out_vec off = some out
      ∧ out.length = out_vec.length
      ∧ (∀ i, i < T → off + i < out_vec.length →
          rd out (off + i)
            = extract_feature bitmap W H (((i : Int) + 1) * (256 / (T : Int))) tmpmat)
      ∧ (∀ j, (j < off ∨ off + T ≤ j) → rd out j = rd out_vec j) := by
  obtain ⟨_, hl, hr⟩ := do_extraction_loop_spec bitmap W H tmpmat (256 / (T : Int))
    out_vec off T
  refine ⟨_, ?_, hl, ?_, ?_⟩
  · unfold do_extraction
    rw [if_neg (by omega)]
  · intro i hi hlt
    rw [hr, if_pos ⟨by omega, by omega, hlt⟩]
    simp
  · intro j hj
    rw [hr, if_neg (by omega)]

/-- C10: for every uniform grayscale grid (all `W * H` cells equal to `c`, with
`W * H > 0`), every threshold step count `T >= 1` and each of the two edge kernels,
`do_extraction` returns and writes 0 for every threshold (cells `off .. off + T - 1`
of the output buffer), leaving the other cells unchanged. -/
theorem do_extraction_uniform_zero (c W H T : Nat) (tmpmat : Matrix (Fin 3) (Fin 3) Int)
    (out_vec : List K) (off : Nat) (_hWH : 0 < W * H) (hT : 1 ≤ T)
    (hk : tmpmat = tmpmatA ∨ tmpmat = tmpmatB) (hoff : off + T ≤ out_vec.length) :
    ∃ out, do_extraction (List.replicate (W * H) c) W H T tmpmat out_vec off = some out
      ∧ out.length = out_vec.length
      ∧ (∀ i, i < T → rd out (off + i) = 0)
      ∧ (∀ j, (j < off ∨ off + T ≤ j) → rd out j = rd out_vec j) := by
  obtain ⟨out, ho, hl, hv, hu⟩ :=
    do_extraction_spec (List.replicate (W * H) c) W H T tmpmat out_vec off hT
  refine ⟨out, ho, hl, ?_, hu⟩
  intro i hi
  rw [hv i hi (by omega)]
  rcases hk with rfl | rfl
  · exact extract_feature_uniform c W H _ tmpmatA tmpmatA_zero_sum
  · exact extract_feature_uniform c W H _ tmpmatB tmpmatB_zero_sum

/-- Witness of C10: the all-white 4 x 4 grid with five threshold steps and the
vertical-edge kernel. -/
theorem do_extraction_uniform_zero_witness :
    0 < 4 * 4 ∧ 1 ≤ 5 ∧ 0 + 5 ≤ (List.replicate 5 (7 : ℚ)).length
    ∧ ∃ out, do_extraction (List.replicate (4 * 4) 255) 4 4 5 tmpmatA
          (List.replicate 5 (7 : ℚ)) 0 = some out
        ∧ out.length = (List.replicate 5 (7 : ℚ)).length
        ∧ (∀ i, i < 5 → rd out (0 + i) = 0)
        ∧ (∀ j, (j < 0 ∨ 0 + 5 ≤ j) → rd out j = rd (List.replicate 5 (7 : ℚ)) j) :=
  ⟨by decide, by decide, by decide,
   do_extraction_uniform_zero 255 4 4 5 tmpmatA (List.replicate 5 (7 : ℚ)) 0
     (by decide) (by decide) (Or.inl rfl) (by decide)⟩


end Tex

/-! ## Block averaging -/

section Subsampling

variable {K : Type} [LinearOrderedField K]

theorem pixel_sum_y (s : Finset Nat) (g : Nat → pixel_ycbcr K) :
    (∑ i ∈ s, g i).y = ∑ i ∈ s, (g i).y := by
  induction s using Finset.cons_induction with
  | empty => rfl
  | cons a s ha ih => rw [Finset.sum_cons, Finset.sum_cons, ← ih]; rfl

theorem pixel_sum_cb (s : Finset Nat) (g : Nat → pixel_ycbcr K) :
    (∑ i ∈ s, g i).cb = ∑ i ∈ s, (g i).cb := by
  induction s using Finset.cons_induction with
  | empty => rfl
  | cons a s ha ih => rw [Finset.sum_cons, Finset.sum_cons, ← ih]; rfl

theorem pixel_sum_cr (s : Finset Nat) (g : Nat → pixel_ycbcr K) :
    (∑ i ∈ s, g i).cr = ∑ i ∈ s, (g i).cr := by
  induction s using Finset.cons_induction with
  | empty => rfl
  | cons a s ha ih => rw [Finset.sum_cons, Finset.sum_cons, ← ih]; rfl

/-- The innermost loop of `subsampling_ycbcr` sums `block_w` consecutive pixels. -/
theorem subsampling_block_spec (ycbcr : List (pixel_ycbcr K)) (block_w p : Nat) :
    subsampling_block ycbcr block_w p
      = (∑ i ∈ Finset.range block_w, rd ycbcr (p + i), p + block_w) := by
  unfold subsampling_block
  induction block_w with
  | zero => rfl
  | succ n ih =>
    rw [for_loop_succ, ih, Finset.sum_range_succ]
    rfl

theorem subsampling_scan_eq (ycbcr : List (pixel_ycbcr K)) (block_w n : Nat)
    (sub : List (pixel_ycbcr K)) (line subline : Nat) :
    subsampling_scan ycbcr block_w n sub line subline
      = (for_loop n (fun _ st => scan_step ycbcr block_w st)
          { sub := sub, p := line, sp := subline }).sub := rfl

theorem subsampling_scale_eq (f : K) (n : Nat) (sub : List (pixel_ycbcr K)) (subline : Nat) :
    subsampling_scale f n sub subline
      = (for_loop n (fun _ st => scale_step f st) { sub := sub, p := 0, sp := subline }).sub :=
  rfl

/-- Reading a window of cells after one more cell, at the end of the window, was
rewritten. -/
theorem rd_set_window {α : Type} [Zero α] (cur old : List α) (base m j : Nat) (a : α)
    (g : Nat → α) (hl : cur.length = old.length)
    (hr : ∀ j, rd cur j = if base ≤ j ∧ j < base + m ∧ j < old.length then g j else rd old j)
    (ha : base + m < old.length → a = g (base + m)) :
    rd (cur.set (base + m) a) j
      = if base ≤ j ∧ j < base + (m + 1) ∧ j < old.length then g j else rd old j := by
  rw [rd_set, hl, hr]
  by_cases hmj : base + m = j
  · subst hmj
    by_cases hm : base + m < old.length
    · rw [if_pos ⟨rfl, hm⟩, if_pos ⟨by omega, by omega, hm⟩]
      exact ha hm
    · rw [if_neg (fun h => hm h.2), if_neg (fun h => hm h.2.2), if_neg (fun h => hm h.2.2)]
  · rw [if_neg (fun h => hmj h.1)]
    by_cases hj : base ≤ j ∧ j < base + m ∧ j < old.length
    · rw [if_pos hj, if_pos ⟨hj.1, by omega, hj.2.2⟩]
    · rw [if_neg hj, if_neg (by omega)]

/-- The line scan adds to subpixel `subline + sx` the sum of block `sx` of the line. -/
theorem subsampling_scan_spec (ycbcr : List (pixel_ycbcr K)) (block_w : Nat)
    (sub : List (pixel_ycbcr K)) (line subline n : Nat) :
    (subsampling_scan ycbcr block_w n sub line subline).length = sub.length
    ∧ ∀ j, rd (subsampling_scan ycbcr block_w n sub line subline) j
        = if subline ≤ j ∧ j < subline + n ∧ j < sub.length then
            rd sub j + ∑ i ∈ Finset.range block_w, rd ycbcr (line + (j - subline) * block_w + i)
          else rd sub j := by
  rw [subsampling_scan_eq]
  have h := for_loop_inv (fun n (st : scan_state K) =>
      st.p = line + n * block_w ∧ st.sp = subline + n ∧ st.sub.length = sub.length
      ∧ ∀ j, rd st.sub j
        = if subline ≤ j ∧ j < subline + n ∧ j < sub.length then
            rd sub j + ∑ i ∈ Finset.range block_w, rd ycbcr (line + (j - subline) * block_w + i)
          else rd sub j)
    n (fun _ st => scan_step ycbcr block_w st) { sub := sub, p := line, sp := subline }
    (by
      refine ⟨by simp, rfl, rfl, ?_⟩
      intro j
      rw [if_neg (by omega)])
    (by
      intro m t _ ⟨hp, hsp, hl, hr⟩
      refine ⟨?_, ?_, ?_, ?_⟩
      · simp only [scan_step, subsampling_block_spec, hp]; ring
      · simp only [scan_step, hsp]; omega
      · simp only [scan_step, List.length_set, hl]
      · intro j
        simp only [scan_step, hsp]
        apply rd_set_window t.sub sub subline m j _
          (fun j => rd sub j
            + ∑ i ∈ Finset.range block_w, rd ycbcr (line + (j - subline) * block_w + i)) hl hr
        intro hm
        rw [hr, if_neg (by omega), subsampling_block_spec, hp, Nat.add_sub_cancel_left]
        rfl)
  exact ⟨h.2.2.1, h.2.2.2⟩

/-- The scaling loop multiplies the subpixels `subline .. subline + n - 1`. -/
theorem subsampling_scale_spec (f : K) (sub : List (pixel_ycbcr K)) (subline n : Nat) :
    (subsampling_scale f n sub subline).length = sub.length
    ∧ ∀ j, rd (subsampling_scale f n sub subline) j
        = if subline ≤ j ∧ j < subline + n ∧ j < sub.length then pixel_scale (rd sub j) f
          else rd sub j := by
  rw [subsampling_scale_eq]
  have h := for_loop_inv (fun n (st : scan_state K) =>
      st.sp = subline + n ∧ st.sub.length = sub.length
      ∧ ∀ j, rd st.sub j
        = if subline ≤ j ∧ j < subline + n ∧ j < sub.length then pixel_scale (rd sub j) f
          else rd sub j)
    n (fun _ st => scale_step f st) { sub := sub, p := 0, sp := subline }
    (by
      refine ⟨rfl, rfl, ?_⟩
      intro j
      rw [if_neg (by omega)])
    (by
      intro m t _ ⟨hsp, hl, hr⟩
      refine ⟨?_, ?_, ?_⟩
      · simp only [scale_step, hsp]; omega
      · simp only [scale_step, List.length_set, hl]
      · intro j
        simp only [scale_step, hsp]
        apply rd_set_window t.sub sub subline m j _ (fun j => pixel_scale (rd sub j) f) hl hr
        intro hm
        rw [hr, if_neg (by omega)]
        rfl)
  exact ⟨h.2.1, h.2.2⟩

theorem cell_in_row (subW sx sy sy' : Nat) (hsx : sx < subW) :
    (sy * subW ≤ sy' * subW + sx ∧ sy' * subW + sx < sy * subW + subW) ↔ sy' = sy := by
  constructor
  · rintro ⟨h1, h2⟩
    rcases Nat.lt_trichotomy sy' sy with h | h | h
    · have : (sy' + 1) * subW ≤ sy * subW := Nat.mul_le_mul_right subW h
      have e : (sy' + 1) * subW = sy' * subW + subW := by ring
      omega
    · exact h
    · have : (sy + 1) * subW ≤ sy' * subW := Nat.mul_le_mul_right subW h
      have e : (sy + 1) * subW = sy * subW + subW := by ring
      omega
  · rintro rfl
    omega

theorem cell_lt (subW subH sx sy : Nat) (hsx : sx < subW) (hsy : sy < subH) :
    sy * subW + sx < subW * subH := by
  have : (sy + 1) * subW ≤ subH * subW := Nat.mul_le_mul_right subW hsy
  have e : (sy + 1) * subW = sy * subW + subW := by ring
  have e2 : subH * subW = subW * subH := Nat.mul_comm _ _
  omega

theorem row_end_iff (bh sy r : Nat) (hr : r < bh) :
    (sy * bh + r + 1) % bh = 0 ↔ r + 1 = bh := by
  have e : (sy * bh + r + 1) % bh = (r + 1) % bh := by
    rw [Nat.add_assoc, Nat.add_comm, Nat.add_mul_mod_self_right]
  rw [e]
  constructor
  · intro h
    rcases Nat.lt_or_ge (r + 1) bh with h1 | h1
    · rw [Nat.mod_eq_of_lt h1] at h; omega
    · omega
  · intro h
    rw [h, Nat.mod_self]

/-- The effect of the body of the row loop on row `sy * bh + r` of the source. -/
theorem subsampling_row_spec (ycbcr : List (pixel_ycbcr K)) (W subW subH bw bh : Nat) (f : K)
    (st : sub_state K) (sy r : Nat) (hr : r < bh) (hsy : sy < subH)
    (h1 : st.sy = sy) (h2 : st.subline = sy * subW) (h3 : st.line = (sy * bh + r) * W)
    (hc : sub_content ycbcr W subW subH bw bh f sy r st.subycbcr) :
    if r + 1 = bh then
      (if sy + 1 = subH then
        (subsampling_row ycbcr W subW subH bw bh f (sy * bh + r) st).2 = true
        ∧ sub_content ycbcr W subW subH bw bh f subH 0
            (subsampling_row ycbcr W subW subH bw bh f (sy * bh + r) st).1.subycbcr
      else
        (subsampling_row ycbcr W subW subH bw bh f (sy * bh + r) st).2 = false
        ∧ (subsampling_row ycbcr W subW subH bw bh f (sy * bh + r) st).1.sy = sy + 1
        ∧ (subsampling_row ycbcr W subW subH bw bh f (sy * bh + r) st).1.subline
            = (sy + 1) * subW
        ∧ (subsampling_row ycbcr W subW subH bw bh f (sy * bh + r) st).1.line
            = (sy * bh + r + 1) * W
        ∧ sub_content ycbcr W subW subH bw bh f (sy + 1) 0
            (subsampling_row ycbcr W subW subH bw bh f (sy * bh + r) st).1.subycbcr)
    else
      (subsampling_row ycbcr W subW subH bw bh f (sy * bh + r) st).2 = false
      ∧ (subsampling_row ycbcr W subW subH bw bh f (sy * bh + r) st).1.sy = sy
      ∧ (subsampling_row ycbcr W subW subH bw bh f (sy * bh + r) st).1.subline = sy * subW
      ∧ (subsampling_row ycbcr W subW subH bw bh f (sy * bh + r) st).1.line
          = (sy * bh + r + 1) * W
      ∧ sub_content ycbcr W subW subH bw bh f sy (r + 1)
          (subsampling_row ycbcr W subW subH bw bh f (sy * bh + r) st).1.subycbcr := by
  obtain ⟨hlen, hcell⟩ := hc
  obtain ⟨hl1, hr1⟩ := subsampling_scan_spec ycbcr bw st.subycbcr st.line st.subline subW
  -- the buffer after the line scan
  have hscan : sub_content ycbcr W subW subH bw bh f sy (r + 1)
      (subsampling_scan ycbcr bw subW st.subycbcr st.line st.subline) := by
    refine ⟨by rw [hl1, hlen], ?_⟩
    intro sx hsx sy' hsy'
    rw [hr1, hcell sx hsx sy' hsy', h2, hlen]
    by_cases heq : sy' = sy
    · subst heq
      have hlt := cell_lt subW subH sx sy' hsx hsy'
      rw [if_pos ⟨by omega, by omega, hlt⟩, if_neg (Nat.lt_irrefl _), if_pos rfl,
        if_neg (Nat.lt_irrefl _), if_pos rfl, h3, Nat.add_sub_cancel_left]
      unfold block_sum
      rw [Finset.sum_range_succ]
    · have hnot : ¬ (sy * subW ≤ sy' * subW + sx ∧ sy' * subW + sx < sy * subW + subW
          ∧ sy' * subW + sx < subW * subH) :=
        fun h => heq ((cell_in_row subW sx sy sy' hsx).1 ⟨h.1, h.2.1⟩)
      rw [if_neg hnot, if_neg heq, if_neg heq]
  have hline : st.line + W = (sy * bh + r + 1) * W := by rw [h3]; ring
  by_cases hend : r + 1 = bh
  · rw [if_pos hend]
    have hmod : (sy * bh + r + 1) % bh = 0 := (row_end_iff bh sy r hr).2 hend
    obtain ⟨hl2, hr2⟩ := subsampling_scale_spec f
      (subsampling_scan ycbcr bw subW st.subycbcr st.line st.subline) st.subline subW
    have hscale : sub_content ycbcr W subW subH bw bh f (sy + 1) 0
        (subsampling_scale f subW
          (subsampling_scan ycbcr bw subW st.subycbcr st.line st.subline) st.subline) := by
      refine ⟨by rw [hl2, hscan.1], ?_⟩
      intro sx hsx sy' hsy'
      rw [hr2, hscan.1, hscan.2 sx hsx sy' hsy', h2]
      by_cases heq : sy' = sy
      · subst heq
        have hlt := cell_lt subW subH sx sy' hsx hsy'
        rw [if_pos ⟨by omega, by omega, hlt⟩, if_neg (Nat.lt_irrefl _), if_pos rfl,
          if_pos (Nat.lt_succ_self _), hend]
      · have hnot : ¬ (sy * subW ≤ sy' * subW + sx ∧ sy' * subW + sx < sy * subW + subW
            ∧ sy' * subW + sx < subW * subH) :=
          fun h => heq ((cell_in_row subW sx sy sy' hsx).1 ⟨h.1, h.2.1⟩)
        rw [if_neg hnot]
        rcases Nat.lt_or_ge sy' sy with hlt | hge
        · rw [if_pos hlt, if_pos (Nat.lt_succ_of_lt hlt)]
        · have hgt : sy < sy' := lt_of_le_of_ne hge (Ne.symm heq)
          rw [if_neg (by omega), if_neg heq, if_neg (by omega)]
          by_cases h4 : sy' = sy + 1
          · rw [if_pos h4]
            unfold block_sum
            rw [Finset.sum_range_zero]
          · rw [if_neg h4]
    by_cases hlast : sy + 1 = subH
    · rw [if_pos hlast]
      unfold subsampling_row
      simp only [hmod, h1, hlast, if_true]
      rw [hlast] at hscale
      exact ⟨trivial, hscale⟩
    · rw [if_neg hlast]
      unfold subsampling_row
      simp only [hmod, h1, hlast, if_true, if_false]
      exact ⟨trivial, trivial, by rw [h2]; ring, hline, hscale⟩
  · rw [if_neg hend]
    have hmod : ¬ (sy * bh + r + 1) % bh = 0 := fun h => hend ((row_end_iff bh sy r hr).1 h)
    unfold subsampling_row
    simp only [hmod, if_false]
    exact ⟨trivial, h1, h2, hline, hscan⟩

/-- The row loop of `subsampling_ycbcr`: before row `sy * bh + r` the loop has not
left and the buffer holds the content of that point; once `subH * bh` rows are done
the loop has left through `break` with every block averaged. -/
theorem subsampling_rows_spec (ycbcr : List (pixel_ycbcr K)) (W subW subH bw bh : Nat) (f : K)
    (hbh : 0 < bh) (hsubH : 0 < subH) (m : Nat) :
    ((for_loop_brk m (subsampling_row ycbcr W subW subH bw bh f)
        { subycbcr := List.replicate (subW * subH) { y := 0, cb := 0, cr := 0 }
          subline := 0, line := 0, sy := 0 }).2 = false
      ∧ ∃ sy r, m = sy * bh + r ∧ r < bh ∧ sy < subH
        ∧ (for_loop_brk m (subsampling_row ycbcr W subW subH bw bh f)
            { subycbcr := List.replicate (subW * subH) { y := 0, cb := 0, cr := 0 }
              subline := 0, line := 0, sy := 0 }).1.sy = sy
        ∧ (for_loop_brk m (subsampling_row ycbcr W subW subH bw bh f)
            { subycbcr := List.replicate (subW * subH) { y := 0, cb := 0, cr := 0 }
              subline := 0, line := 0, sy := 0 }).1.subline = sy * subW
        ∧ (for_loop_brk m (subsampling_row ycbcr W subW subH bw bh f)
            { subycbcr := List.replicate (subW * subH) { y := 0, cb := 0, cr := 0 }
              subline := 0, line := 0, sy := 0 }).1.line = (sy * bh + r) * W
        ∧ sub_content ycbcr W subW subH bw bh f sy r
            (for_loop_brk m (subsampling_row ycbcr W subW subH bw bh f)
              { subycbcr := List.replicate (subW * subH) { y := 0, cb := 0, cr := 0 }
                subline := 0, line := 0, sy := 0 }).1.subycbcr)
    ∨ ((for_loop_brk m (subsampling_row ycbcr W subW subH bw bh f)
        { subycbcr := List.replicate (subW * subH) { y := 0, cb := 0, cr := 0 }
          subline := 0, line := 0, sy := 0 }).2 = true
      ∧ sub_content ycbcr W subW subH bw bh f subH 0
          (for_loop_brk m (subsampling_row ycbcr W subW subH bw bh f)
            { subycbcr := List.replicate (subW * subH) { y := 0, cb := 0, cr := 0 }
              subline := 0, line := 0, sy := 0 }).1.subycbcr) := by
  induction m with
  | zero =>
    left
    refine ⟨rfl, 0, 0, by simp, hbh, hsubH, rfl, by simp [for_loop_brk],
      by simp [for_loop_brk], ?_⟩
    refine ⟨by simp [for_loop_brk], ?_⟩
    intro sx _ sy' _
    have h0 : rd (for_loop_brk 0 (subsampling_row ycbcr W subW subH bw bh f)
        { subycbcr := List.replicate (subW * subH) { y := 0, cb := 0, cr := 0 }
          subline := 0, line := 0, sy := 0 }).1.subycbcr (sy' * subW + sx) = 0 :=
      rd_replicate (subW * subH) (sy' * subW + sx)
    rw [h0, if_neg (Nat.not_lt_zero _)]
    by_cases h : sy' = 0
    · rw [if_pos h]; unfold block_sum; rw [Finset.sum_range_zero]
    · rw [if_neg h]
  | succ n ih =>
    have hunf : for_loop_brk (n + 1) (subsampling_row ycbcr W subW subH bw bh f)
        { subycbcr := List.replicate (subW * subH) { y := 0, cb := 0, cr := 0 }
          subline := 0, line := 0, sy := 0 }
        = if (for_loop_brk n (subsampling_row ycbcr W subW subH bw bh f)
            { subycbcr := List.replicate (subW * subH) { y := 0, cb := 0, cr := 0 }
              subline := 0, line := 0, sy := 0 }).2
          then for_loop_brk n (subsampling_row ycbcr W subW subH bw bh f)
            { subycbcr := List.replicate (subW * subH) { y := 0, cb := 0, cr := 0 }
              subline := 0, line := 0, sy := 0 }
          else subsampling_row ycbcr W subW subH bw bh f n
            (for_loop_brk n (subsampling_row ycbcr W subW subH bw bh f)
              { subycbcr := List.replicate (subW * subH) { y := 0, cb := 0, cr := 0 }
                subline := 0, line := 0, sy := 0 }).1 := rfl
    rw [hunf]
    rcases ih with ⟨hb, sy, r, hn, hr, hsy, h1, h2, h3, hc⟩ | ⟨hb, hc⟩
    · rw [hb]
      simp only [Bool.false_eq_true, if_false]
      have hstep := subsampling_row_spec ycbcr W subW subH bw bh f _ sy r hr hsy h1 h2 h3 hc
      rw [← hn] at hstep
      by_cases hend : r + 1 = bh
      · rw [if_pos hend] at hstep
        by_cases hlast : sy + 1 = subH
        · rw [if_pos hlast] at hstep
          right
          exact hstep
        · rw [if_neg hlast] at hstep
          left
          obtain ⟨g1, g2, g3, g4, g5⟩ := hstep
          refine ⟨g1, sy + 1, 0, ?_, hbh, by omega, g2, g3, ?_, g5⟩
          · rw [hn, ← hend]; ring
          · rw [g4, hn, ← hend]; ring
      · rw [if_neg hend] at hstep
        left
        obtain ⟨g1, g2, g3, g4, g5⟩ := hstep
        refine ⟨g1, sy, r + 1, by omega, by omega, hsy, g2, g3, ?_, g5⟩
        rw [g4, hn, Nat.add_assoc]
    · rw [hb]
      simp only [if_true]
      right
      exact ⟨hb, hc⟩

/-- What `subsampling_ycbcr` returns on a target grid no larger than the source:
a buffer of `subW * subH` cells, cell `sy * subW + sx` being the block sum of block
`(sx, sy)` multiplied by `1 / (bw * bh)`. -/
theorem subsampling_ycbcr_spec (ycbcr : List (pixel_ycbcr K)) (W H subW subH : Nat)
    (hsubW : 1 ≤ subW) (hsubH : 1 ≤ subH) (hH : subH ≤ H) :
    ∃ sub, subsampling_ycbcr ycbcr W H subW subH = some sub
      ∧ sub.length = subW * subH
      ∧ ∀ sx, sx < subW → ∀ sy, sy < subH →
          rd sub (sy * subW + sx)
            = pixel_scale (block_sum ycbcr W (W / subW) (H / subH) sx sy (H / subH))
                (1 / (((W / subW) * (H / subH) : Nat) : K)) := by
  have hbh : 0 < H / subH := Nat.div_pos hH hsubH
  have hcover : subH * (H / subH) ≤ H := Nat.mul_div_le H subH
  have hspec := subsampling_rows_spec ycbcr W subW subH (W / subW) (H / subH)
    (1.0 / (((W / subW) * (H / subH) : Nat) : K)) hbh hsubH H
  have hret : subsampling_ycbcr ycbcr W H subW subH
      = some (for_loop_brk H (subsampling_row ycbcr W subW subH (W / subW) (H / subH)
          (1.0 / (((W / subW) * (H / subH) : Nat) : K)))
          { subycbcr := List.replicate (subW * subH) { y := 0, cb := 0, cr := 0 }
            subline := 0, line := 0, sy := 0 }).1.subycbcr := by
    unfold subsampling_ycbcr
    rw [if_neg (by omega)]
    simp only []
    rw [if_neg (by omega)]
  rcases hspec with ⟨_, sy, r, hn, hr, hsy, _⟩ | ⟨_, hc⟩
  · exfalso
    have : (sy + 1) * (H / subH) ≤ subH * (H / subH) := Nat.mul_le_mul_right _ hsy
    have e : (sy + 1) * (H / subH) = sy * (H / subH) + H / subH := by ring
    omega
  · refine ⟨_, hret, hc.1, ?_⟩
    intro sx hsx sy hsy
    rw [hc.2 sx hsx sy hsy, if_pos hsy]
    norm_num

/-- A block sum reads only source pixels of the columns below `subW * bw` and of the
rows below `subH * bh`. -/
theorem block_sum_congr (src src' : List (pixel_ycbcr K)) (W subW subH bw bh sx sy : Nat)
    (hsx : sx < subW) (hsy : sy < subH)
    (h : ∀ x y, x < subW * bw → y < subH * bh → rd src' (y * W + x) = rd src (y * W + x)) :
    block_sum src' W bw bh sx sy bh = block_sum src W bw bh sx sy bh := by
  unfold block_sum
  apply Finset.sum_congr rfl
  intro j hj
  apply Finset.sum_congr rfl
  intro i hi
  rw [Finset.mem_range] at hj hi
  rw [Nat.add_assoc]
  apply h
  · have : (sx + 1) * bw ≤ subW * bw := Nat.mul_le_mul_right bw hsx
    have e : (sx + 1) * bw = sx * bw + bw := by ring
    omega
  · have : (sy + 1) * bh ≤ subH * bh := Nat.mul_le_mul_right bh hsy
    have e : (sy + 1) * bh = sy * bh + bh := by ring
    omega

/-- A channel of a block sum, as a sum over the coordinate ranges of the block. -/
theorem block_sum_channel (ch : pixel_ycbcr K → K)
    (hch : ∀ (s : Finset Nat) (g : Nat → pixel_ycbcr K), ch (∑ i ∈ s, g i) = ∑ i ∈ s, ch (g i))
    (src : List (pixel_ycbcr K)) (W bw bh sx sy : Nat) :
    ch (block_sum src W bw bh sx sy bh)
      = ∑ y ∈ Finset.Ico (sy * bh) (sy * bh + bh), ∑ x ∈ Finset.Ico (sx * bw) (sx * bw + bw),
          ch (rd src (y * W + x)) := by
  unfold block_sum
  rw [hch, Finset.sum_Ico_eq_sum_range, Nat.add_sub_cancel_left]
  apply Finset.sum_congr rfl
  intro j _
  rw [hch, Finset.sum_Ico_eq_sum_range, Nat.add_sub_cancel_left]
  apply Finset.sum_congr rfl
  intro i _
  rw [Nat.add_assoc]

/-- C1: for every source grid of width `W` and height `H` and every target size
`subW` x `subH` with `1 <= subW <= W` and `1 <= subH <= H`, `subsampling_ycbcr` returns
a `subW` x `subH` grid whose cell `(sx, sy)` equals, per channel, the arithmetic mean
of the source pixels with coordinates in `[sx*bw, sx*bw+bw) x [sy*bh, sy*bh+bh)`, where
`bw = W / subW` and `bh = H / subH`; source columns `>= subW*bw` and rows `>= subH*bh`
contribute to no cell (a source that differs only there gives the same grid). -/
theorem subsampling_ycbcr_block_mean (ycbcr : List (pixel_ycbcr K)) (W H subW subH : Nat)
    (_hlen : ycbcr.length = W * H) (hsubW : 1 ≤ subW) (_hW : subW ≤ W)
    (hsubH : 1 ≤ subH) (hH : subH ≤ H) :
    ∃ sub, subsampling_ycbcr ycbcr W H subW subH = some sub
      ∧ sub.length = subW * subH
      ∧ (∀ sx sy, sx < subW → sy < subH →
          (rd sub (sy * subW + sx)).y
              = (∑ y ∈ Finset.Ico (sy * (H / subH)) (sy * (H / subH) + H / subH),
                  ∑ x ∈ Finset.Ico (sx * (W / subW)) (sx * (W / subW) + W / subW),
                    (rd ycbcr (y * W + x)).y) / (((W / subW) * (H / subH) : Nat) : K)
          ∧ (rd sub (sy * subW + sx)).cb
              = (∑ y ∈ Finset.Ico (sy * (H / subH)) (sy * (H / subH) + H / subH),
                  ∑ x ∈ Finset.Ico (sx * (W / subW)) (sx * (W / subW) + W / subW),
                    (rd ycbcr (y * W + x)).cb) / (((W / subW) * (H / subH) : Nat) : K)
          ∧ (rd sub (sy * subW + sx)).cr
              = (∑ y ∈ Finset.Ico (sy * (H / subH)) (sy * (H / subH) + H / subH),
                  ∑ x ∈ Finset.Ico (sx * (W / subW)) (sx * (W / subW) + W / subW),
                    (rd ycbcr (y * W + x)).cr) / (((W / subW) * (H / subH) : Nat) : K))
      ∧ (∀ ycbcr' : List (pixel_ycbcr K), ycbcr'.length = W * H →
          (∀ x y, x < subW * (W / subW) → y < subH * (H / subH) →
            rd ycbcr' (y * W + x) = rd ycbcr (y * W + x)) →
          subsampling_ycbcr ycbcr' W H subW subH = some sub) := by
  obtain ⟨sub, hs, hl, hv⟩ := subsampling_ycbcr_spec ycbcr W H subW subH hsubW hsubH hH
  refine ⟨sub, hs, hl, ?_, ?_⟩
  · intro sx sy hsx hsy
    rw [hv sx hsx sy hsy]
    refine ⟨?_, ?_, ?_⟩
    · rw [← block_sum_channel (fun p => p.y) pixel_sum_y]
      exact mul_one_div _ _
    · rw [← block_sum_channel (fun p => p.cb) pixel_sum_cb]
      exact mul_one_div _ _
    · rw [← block_sum_channel (fun p => p.cr) pixel_sum_cr]
      exact mul_one_div _ _
  · intro src' _ hagree
    obtain ⟨sub', hs', hl', hv'⟩ := subsampling_ycbcr_spec src' W H subW subH hsubW hsubH hH
    rw [hs']
    congr 1
    apply ext_rd _ _ (by rw [hl', hl])
    intro idx hidx
    rw [hl'] at hidx
    have hsx : idx % subW < subW := Nat.mod_lt _ (by omega)
    have hsy : idx / subW < subH := by
      rw [Nat.div_lt_iff_lt_mul (by omega), Nat.mul_comm]
      exact hidx
    have hdecomp : idx = idx / subW * subW + idx % subW := by
      rw [Nat.mul_comm]; exact (Nat.div_add_mod idx subW).symm
    rw [hdecomp, hv' _ hsx _ hsy, hv _ hsx _ hsy,
      block_sum_congr ycbcr src' W subW subH _ _ _ _ hsx hsy hagree]

/-- Witness of C1: the 7 x 5 sample grid subsampled to 3 x 2. -/
theorem subsampling_ycbcr_block_mean_witness :
    sample_ycbcr.length = 7 * 5 ∧ 1 ≤ 3 ∧ 3 ≤ 7 ∧ 1 ≤ 2 ∧ 2 ≤ 5
    ∧ ∃ sub, subsampling_ycbcr sample_ycbcr 7 5 3 2 = some sub
        ∧ sub.length = 3 * 2
        ∧ (∀ sx sy, sx < 3 → sy < 2 →
            (rd sub (sy * 3 + sx)).y
                = (∑ y ∈ Finset.Ico (sy * (5 / 2)) (sy * (5 / 2) + 5 / 2),
                    ∑ x ∈ Finset.Ico (sx * (7 / 3)) (sx * (7 / 3) + 7 / 3),
                      (rd sample_ycbcr (y * 7 + x)).y) / (((7 / 3) * (5 / 2) : Nat) : ℚ)
            ∧ (rd sub (sy * 3 + sx)).cb
                = (∑ y ∈ Finset.Ico (sy * (5 / 2)) (sy * (5 / 2) + 5 / 2),
                    ∑ x ∈ Finset.Ico (sx * (7 / 3)) (sx * (7 / 3) + 7 / 3),
                      (rd sample_ycbcr (y * 7 + x)).cb) / (((7 / 3) * (5 / 2) : Nat) : ℚ)
            ∧ (rd sub (sy * 3 + sx)).cr
                = (∑ y ∈ Finset.Ico (sy * (5 / 2)) (sy * (5 / 2) + 5 / 2),
                    ∑ x ∈ Finset.Ico (sx * (7 / 3)) (sx * (7 / 3) + 7 / 3),
                      (rd sample_ycbcr (y * 7 + x)).cr) / (((7 / 3) * (5 / 2) : Nat) : ℚ))
        ∧ (∀ ycbcr' : List (pixel_ycbcr ℚ), ycbcr'.length = 7 * 5 →
            (∀ x y, x < 3 * (7 / 3) → y < 2 * (5 / 2) →
              rd ycbcr' (y * 7 + x) = rd sample_ycbcr (y * 7 + x)) →
            subsampling_ycbcr ycbcr' 7 5 3 2 = some sub) :=
  ⟨by decide, by decide, by decide, by decide, by decide,
   subsampling_ycbcr_block_mean sample_ycbcr 7 5 3 2
     (by decide) (by decide) (by decide) (by decide) (by decide)⟩

end Subsampling

/-! ## Frequency transform -/

section Dct

/-- The transform as a double sum: `output[v][u] = 0.25 * Cu * Cv * sum`. -/
theorem dct_eq_sum {K : Type} [LinearOrderedField K] (cos sqrt : K → K) (M_PI : K)
    (input : Nat → Nat → K) (v u : Nat) :
    dct cos sqrt M_PI input v u
      = 0.25 * COEFFS sqrt u * COEFFS sqrt v *
          ∑ y ∈ Finset.range 8, ∑ x ∈ Finset.range 8,
            input x y * cos ((2 * x + 1 : Nat) * (u : K) * M_PI / 16.0)
              * cos ((2 * y + 1 : Nat) * (v : K) * M_PI / 16.0) := by
  unfold dct
  simp only [for_loop_sum]
  norm_num

/-- Telescoping identity: `2 sin t * sum_{x<n} cos ((2x+1) t) = sin (2 n t)`. -/
theorem two_sin_mul_cos_sum (t : ℝ) (n : Nat) :
    2 * Real.sin t * ∑ x ∈ Finset.range n, Real.cos ((2 * (x : ℝ) + 1) * t)
      = Real.sin (2 * (n : ℝ) * t) := by
  induction n with
  | zero => simp
  | succ m ih =>
    rw [Finset.sum_range_succ, mul_add, ih]
    have e1 : 2 * ((m + 1 : Nat) : ℝ) * t = (2 * (m : ℝ) + 1) * t + t := by push_cast; ring
    have e2 : 2 * (m : ℝ) * t = (2 * (m : ℝ) + 1) * t - t := by ring
    rw [e1, e2, Real.sin_add, Real.sin_sub]
    ring

/-- The cosine sum of `dct` vanishes at every non-zero frequency. -/
theorem cos_sum_eq_zero (u : Nat) (hu : 0 < u) (hu16 : u < 16) :
    ∑ x ∈ Finset.range 8, Real.cos ((2 * x + 1 : Nat) * (u : ℝ) * Real.pi / 16.0) = 0 := by
  have hterm : ∀ x : Nat, Real.cos ((2 * x + 1 : Nat) * (u : ℝ) * Real.pi / 16.0)
      = Real.cos ((2 * (x : ℝ) + 1) * ((u : ℝ) * Real.pi / 16)) := by
    intro x
    congr 1
    push_cast
    norm_num
    ring
  simp only [hterm]
  have h := two_sin_mul_cos_sum ((u : ℝ) * Real.pi / 16) 8
  have hsin : Real.sin (2 * ((8 : Nat) : ℝ) * ((u : ℝ) * Real.pi / 16)) = 0 := by
    have : 2 * ((8 : Nat) : ℝ) * ((u : ℝ) * Real.pi / 16) = (u : ℝ) * Real.pi := by
      push_cast; ring
    rw [this, Real.sin_nat_mul_pi]
  rw [hsin] at h
  have hpos : 0 < Real.sin ((u : ℝ) * Real.pi / 16) := by
    apply Real.sin_pos_of_pos_of_lt_pi
    · have : (0 : ℝ) < u := by exact_mod_cast hu
      positivity
    · have : (u : ℝ) < 16 := by exact_mod_cast hu16
      have hpi := Real.pi_pos
      rw [div_lt_iff₀ (by norm_num)]
      nlinarith
  rcases mul_eq_zero.1 h with h1 | h1
  · exfalso
    have : Real.sin ((u : ℝ) * Real.pi / 16) = 0 := by linarith
    linarith
  · exact h1

/-- The cosine sum of `dct` at frequency 0 is 8. -/
theorem cos_sum_zero_freq :
    ∑ x ∈ Finset.range 8, Real.cos ((2 * x + 1 : Nat) * ((0 : Nat) : ℝ) * Real.pi / 16.0) = 8 := by
  simp

/-- The square of the coefficient `C(0) = 1 / sqrt 2` is 1/2. -/
theorem COEFFS_zero_sq : COEFFS Real.sqrt 0 * COEFFS Real.sqrt 0 = 1 / 2 := by
  have h2 : Real.sqrt 2.0 * Real.sqrt 2.0 = 2 := by
    have : (2.0 : ℝ) = 2 := by norm_num
    rw [this]
    exact Real.mul_self_sqrt (by norm_num)
  unfold COEFFS
  rw [if_pos rfl]
  have : (1.0 : ℝ) / Real.sqrt 2.0 * (1.0 / Real.sqrt 2.0)
      = 1 / (Real.sqrt 2.0 * Real.sqrt 2.0) := by
    rw [div_mul_div_comm]; norm_num
  rw [this, h2]

end Dct

/-! ## Vector lengths -/

section Lengths

variable {K : Type} [LinearOrderedField K]

end Lengths

/-! ## Thresholding and degenerate vectors -/

section Binmap

/-- C11: for every grayscale grid of `W * H` cells and every integer threshold,
`grayscale_to_binmap` replaces each cell by 1 if its value is strictly greater than
the threshold and by 0 otherwise (a cell equal to the threshold maps to 0), so every
output cell is 0 or 1, and the number of cells is unchanged. -/
theorem grayscale_to_binmap_threshold (g : List Nat) (W H : Nat) (thr : Int)
    (hlen : g.length = W * H) :
    (grayscale_to_binmap g W H thr).length = W * H
    ∧ ∀ j, j < W * H →
        rd (grayscale_to_binmap g W H thr) j = (if ((rd g j : Nat) : Int) > thr then 1 else 0)
        ∧ (((rd g j : Nat) : Int) = thr → rd (grayscale_to_binmap g W H thr) j = 0)
        ∧ (rd (grayscale_to_binmap g W H thr) j = 0
            ∨ rd (grayscale_to_binmap g W H thr) j = 1) := by
  refine ⟨by rw [grayscale_to_binmap_length, hlen], ?_⟩
  intro j hj
  have hv : rd (grayscale_to_binmap g W H thr) j
      = (if ((rd g j : Nat) : Int) > thr then 1 else 0) := by
    rw [grayscale_to_binmap_rd, if_pos ⟨hj, by rw [hlen]; exact hj⟩]
  refine ⟨hv, ?_, ?_⟩
  · intro heq
    rw [hv, if_neg (by rw [heq]; exact lt_irrefl thr)]
  · rw [hv]
    by_cases h : ((rd g j : Nat) : Int) > thr
    · right; rw [if_pos h]
    · left; rw [if_neg h]

/-- Witness of C11: a 2 x 2 grid with threshold 100. -/
theorem grayscale_to_binmap_threshold_witness :
    [0, 100, 101, 255].length = 2 * 2
    ∧ (grayscale_to_binmap [0, 100, 101, 255] 2 2 100).length = 2 * 2
    ∧ ∀ j, j < 2 * 2 →
        rd (grayscale_to_binmap [0, 100, 101, 255] 2 2 100) j
          = (if ((rd [0, 100, 101, 255] j : Nat) : Int) > 100 then 1 else 0)
        ∧ (((rd [0, 100, 101, 255] j : Nat) : Int) = 100
            → rd (grayscale_to_binmap [0, 100, 101, 255] 2 2 100) j = 0)
        ∧ (rd (grayscale_to_binmap [0, 100, 101, 255] 2 2 100) j = 0
            ∨ rd (grayscale_to_binmap [0, 100, 101, 255] 2 2 100) j = 1) :=
  ⟨by decide, grayscale_to_binmap_threshold [0, 100, 101, 255] 2 2 100 (by decide)⟩

end Binmap

section NormalizeEdge
variable {K : Type} [LinearOrderedField K]

/-- C14, the code at the failing input: on the vector 1, -3, 4, 2 `normalize_vector`
returns 1/4, -3/4, 1, 1/2, which has the element -3/4 below 0. -/
theorem normalize_vector_negative_output :
    normalize_vector [(1 : ℚ), -3, 4, 2] 4 = [1 / 4, -3 / 4, 1, 1 / 2]
    ∧ ∃ x ∈ normalize_vector [(1 : ℚ), -3, 4, 2] 4, x < 0 := by
  have h : normalize_vector [(1 : ℚ), -3, 4, 2] 4 = [1 / 4, -3 / 4, 1, 1 / 2] := by
    simp [normalize_vector, for_loop, rd]
    norm_num
  exact ⟨h, -3 / 4, by rw [h]; simp, by norm_num⟩

end NormalizeEdge

/-! ## Colour-space round trip -/

section RoundTrip
variable {K : Type} [LinearOrderedField K] [FloorRing K]

/-- Truncating a value within distance 1 of an integer gives an integer within
distance 1. -/
theorem c_trunc_near (n : Int) (x : K) (h1 : (n : K) - 1 < x) (h2 : x < (n : K) + 1) :
    |c_trunc x - n| ≤ 1 := by
  unfold c_trunc
  rw [abs_le]
  split
  · constructor
    · have : n - 1 ≤ ⌊x⌋ := Int.le_floor.2 (by push_cast; linarith)
      omega
    · have : ⌊x⌋ < n + 1 := Int.floor_lt.2 (by push_cast; linarith)
      omega
  · constructor
    · have : n - 1 < ⌈x⌉ := Int.lt_ceil.2 (by push_cast; linarith)
      omega
    · have : ⌈x⌉ ≤ n + 1 := Int.ceil_le.2 (by push_cast; linarith)
      omega

/-- C12: for every RGB triple with integer components in 0..255, converting with
`rgb2ycbcr` and back with `ycbcr2rgb` recovers each component within 1; the triple
(255, 0, 0) is not recovered exactly (its red component comes back as 254). -/
theorem rgb_ycbcr_round_trip (r g b : Int) (hr : 0 ≤ r ∧ r ≤ 255) (hg : 0 ≤ g ∧ g ≤ 255)
    (hb : 0 ≤ b ∧ b ≤ 255) :
    |(ycbcr2rgb (rgb2ycbcr r g b : pixel_ycbcr K)).1 - r| ≤ 1
    ∧ |(ycbcr2rgb (rgb2ycbcr r g b : pixel_ycbcr K)).2.1 - g| ≤ 1
    ∧ |(ycbcr2rgb (rgb2ycbcr r g b : pixel_ycbcr K)).2.2 - b| ≤ 1
    ∧ (ycbcr2rgb (rgb2ycbcr 255 0 0 : pixel_ycbcr K)).1 = 254 := by
  have hr0 : (0 : K) ≤ r := by exact_mod_cast hr.1
  have hr1 : (r : K) ≤ 255 := by exact_mod_cast hr.2
  have hg0 : (0 : K) ≤ g := by exact_mod_cast hg.1
  have hg1 : (g : K) ≤ 255 := by exact_mod_cast hg.2
  have hb0 : (0 : K) ≤ b := by exact_mod_cast hb.1
  have hb1 : (b : K) ≤ 255 := by exact_mod_cast hb.2
  refine ⟨?_, ?_, ?_, ?_⟩
  · apply c_trunc_near
    · simp only [rgb2ycbcr]; norm_num; linarith
    · simp only [rgb2ycbcr]; norm_num; linarith
  · apply c_trunc_near
    · simp only [rgb2ycbcr]; norm_num; linarith
    · simp only [rgb2ycbcr]; norm_num; linarith
  · apply c_trunc_near
    · simp only [rgb2ycbcr]; norm_num; linarith
    · simp only [rgb2ycbcr]; norm_num; linarith
  · simp only [ycbcr2rgb, rgb2ycbcr, c_trunc]
    norm_num

/-- Witness of C12: the triple (255, 0, 0). -/
theorem rgb_ycbcr_round_trip_witness :
    ((0 : Int) ≤ 255 ∧ (255 : Int) ≤ 255) ∧ ((0 : Int) ≤ 0 ∧ (0 : Int) ≤ 255)
    ∧ ((0 : Int) ≤ 0 ∧ (0 : Int) ≤ 255)
    ∧ |(ycbcr2rgb (rgb2ycbcr 255 0 0 : pixel_ycbcr ℚ)).1 - 255| ≤ 1
    ∧ |(ycbcr2rgb (rgb2ycbcr 255 0 0 : pixel_ycbcr ℚ)).2.1 - 0| ≤ 1
    ∧ |(ycbcr2rgb (rgb2ycbcr 255 0 0 : pixel_ycbcr ℚ)).2.2 - 0| ≤ 1
    ∧ (ycbcr2rgb (rgb2ycbcr 255 0 0 : pixel_ycbcr ℚ)).1 = 254 :=
  ⟨by decide, by decide, by decide,
   rgb_ycbcr_round_trip 255 0 0 (by decide) (by decide) (by decide)⟩

end RoundTrip

/-! ## Images smaller than the grid -/

section SmallImage
variable {K : Type} [LinearOrderedField K]

/-- With at least one row and a height below `sub_height`, the row loop of
`subsampling_ycbcr` evaluates `(y + 1) % block_h` with `block_h = 0`. -/
theorem subsampling_small_height (ycbcr : List (pixel_ycbcr K)) (W H subW subH : Nat)
    (hH : 1 ≤ H) (hlt : H < subH) :
    subsampling_ycbcr ycbcr W H subW subH = none := by
  unfold subsampling_ycbcr
  by_cases h0 : subW = 0 ∨ subH = 0
  · rw [if_pos h0]
  · rw [if_neg h0]
    simp only []
    rw [if_pos ⟨Nat.div_eq_of_lt hlt, hH⟩]

end SmallImage

/-! ## Zig-zag traversal -/

section Zigzag

/-- The zig-zag output as the image of the index sequence. -/
theorem ycbcr_zigzag_map {α : Type} [Zero α] (g : List α) :
    ycbcr_zigzag g = spec_zigzag_order.map (fun k => rd g k) := by
  have h := ZZ_foldl g spec_zigzag_order [] 64 (by decide)
  have h2 : ycbcr_zigzag g
      = (spec_zigzag_order.foldl (fun st k => ZZ g k st)
          { zigzag := [] ++ List.replicate 64 0, i := ([] : List α).length }).zigzag := rfl
  rw [h2, h]
  simp [spec_zigzag_order]

/-- Reading the cells 0, 1, ..., n - 1 of a buffer of length n gives the buffer. -/
theorem map_rd_range {α : Type} [Zero α] (g : List α) :
    (List.range g.length).map (fun k => rd g k) = g := by
  apply ext_rd _ _ (by simp)
  intro i hi
  simp only [List.length_map, List.length_range] at hi
  simp [rd, List.getD_eq_getElem?_getD, hi]

/-- C17: the index sequence used by `ycbcr_zigzag` (its output on the grid that
stores its own index) is a permutation of 0..63, so every cell of a 64-cell grid
appears exactly once in the output; it starts at cell 0 and ends at cell 63; with
cell index `x + 8 y` the anti-diagonal number `x + y` never decreases along it; and
within an anti-diagonal each step goes down-left (index + 7) when the anti-diagonal
number is odd and up-right (index - 7) when it is even, so that the direction
alternates from one anti-diagonal to the next. -/
theorem ycbcr_zigzag_standard {α : Type} [Zero α] (g : List α) (hg : g.length = 64) :
    (ycbcr_zigzag (List.range 64)).Perm (List.range 64)
    ∧ (ycbcr_zigzag g).Perm g
    ∧ (ycbcr_zigzag (List.range 64)).head? = some 0
    ∧ (ycbcr_zigzag (List.range 64)).getLast? = some 63
    ∧ (∀ i, i < 63 →
        rd (ycbcr_zigzag (List.range 64)) i % 8 + rd (ycbcr_zigzag (List.range 64)) i / 8
          ≤ rd (ycbcr_zigzag (List.range 64)) (i + 1) % 8
            + rd (ycbcr_zigzag (List.range 64)) (i + 1) / 8)
    ∧ (∀ i, i < 63 →
        rd (ycbcr_zigzag (List.range 64)) i % 8 + rd (ycbcr_zigzag (List.range 64)) i / 8
          = rd (ycbcr_zigzag (List.range 64)) (i + 1) % 8
            + rd (ycbcr_zigzag (List.range 64)) (i + 1) / 8 →
        if (rd (ycbcr_zigzag (List.range 64)) i % 8
            + rd (ycbcr_zigzag (List.range 64)) i / 8) % 2 = 1
        then rd (ycbcr_zigzag (List.range 64)) (i + 1) = rd (ycbcr_zigzag (List.range 64)) i + 7
        else rd (ycbcr_zigzag (List.range 64)) i
          = rd (ycbcr_zigzag (List.range 64)) (i + 1) + 7)
    ∧ (ycbcr_zigzag (List.range 64)).take 10 = [0, 1, 8, 16, 9, 2, 3, 10, 17, 24] := by
  have hperm : (ycbcr_zigzag (List.range 64)).Perm (List.range 64) := by decide
  refine ⟨hperm, ?_, by decide, by decide, by decide, by decide, by decide⟩
  rw [ycbcr_zigzag_map] at hperm ⊢
  have h1 : (spec_zigzag_order.map (fun k => rd (List.range 64) k)) = spec_zigzag_order := by
    decide
  rw [h1] at hperm
  have h2 := hperm.map (fun k => rd g k)
  have h3 : (List.range 64).map (fun k => rd g k) = g := by
    rw [← hg]; exact map_rd_range g
  rw [h3] at h2
  exact h2

/-- Witness of C17: the grid that stores its own index. -/
theorem ycbcr_zigzag_standard_witness :
    (List.range 64).length = 64
    ∧ (ycbcr_zigzag (List.range 64)).Perm (List.range 64)
    ∧ (ycbcr_zigzag (List.range 64)).Perm (List.range 64)
    ∧ (ycbcr_zigzag (List.range 64)).head? = some 0
    ∧ (ycbcr_zigzag (List.range 64)).getLast? = some 63
    ∧ (∀ i, i < 63 →
        rd (ycbcr_zigzag (List.range 64)) i % 8 + rd (ycbcr_zigzag (List.range 64)) i / 8
          ≤ rd (ycbcr_zigzag (List.range 64)) (i + 1) % 8
            + rd (ycbcr_zigzag (List.range 64)) (i + 1) / 8)
    ∧ (∀ i, i < 63 →
        rd (ycbcr_zigzag (List.range 64)) i % 8 + rd (ycbcr_zigzag (List.range 64)) i / 8
          = rd (ycbcr_zigzag (List.range 64)) (i + 1) % 8
            + rd (ycbcr_zigzag (List.range 64)) (i + 1) / 8 →
        if (rd (ycbcr_zigzag (List.range 64)) i % 8
            + rd (ycbcr_zigzag (List.range 64)) i / 8) % 2 = 1
        then rd (ycbcr_zigzag (List.range 64)) (i + 1) = rd (ycbcr_zigzag (List.range 64)) i + 7
        else rd (ycbcr_zigzag (List.range 64)) i
          = rd (ycbcr_zigzag (List.range 64)) (i + 1) + 7)
    ∧ (ycbcr_zigzag (List.range 64)).take 10 = [0, 1, 8, 16, 9, 2, 3, 10, 17, 24] :=
  ⟨by decide, ycbcr_zigzag_standard (List.range 64) (by decide)⟩

end Zigzag

/-! ## Transposed grids -/

section Transpose
variable {K : Type} [LinearOrderedField K]

theorem rd_map_range {α : Type} [Zero α] (f : Nat → α) (n i : Nat) (hi : i < n) :
    rd ((List.range n).map f) i = f i := by
  simp [rd, List.getD_eq_getElem?_getD, hi]

theorem rd_transpose_grid (b : List Nat) (W H r c : Nat) (hr : r < W) (hc : c < H) :
    rd (transpose_grid b W H) (r * H + c) = rd b (c * W + r) := by
  unfold transpose_grid
  have hlt : r * H + c < W * H := by
    have := cell_lt H W c r hc hr
    rw [Nat.mul_comm W H]; exact this
  rw [rd_map_range _ _ _ hlt]
  have h1 : (r * H + c) % H = c := by
    rw [Nat.add_comm, Nat.add_mul_mod_self_right, Nat.mod_eq_of_lt hc]
  have h2 : (r * H + c) / H = r := by
    rw [Nat.add_comm, Nat.add_mul_div_right _ _ (by omega), Nat.div_eq_of_lt hc, Nat.zero_add]
  rw [h1, h2]

/-- The response of the horizontal-edge kernel on the transposed grid is the
response of the vertical-edge kernel on the grid at the mirrored pixel. -/
theorem spec_response_transpose (b : List Nat) (W H cx cy : Nat)
    (hcx : 1 ≤ cx ∧ cx ≤ H - 2) (hcy : 1 ≤ cy ∧ cy ≤ W - 2) :
    spec_response (transpose_grid b W H) H tmpmatB cx cy = spec_response b W tmpmatA cy cx := by
  unfold spec_response
  have hidx : ∀ i j : Fin 3,
      rd (transpose_grid b W H) ((cy - 1 + i.val) * H + (cx - 1 + j.val))
        = rd b ((cx - 1 + j.val) * W + (cy - 1 + i.val)) := by
    intro i j
    have hi := i.isLt
    have hj := j.isLt
    exact rd_transpose_grid b W H _ _ (by omega) (by omega)
  have a00 : tmpmatA 0 0 = 1 := rfl
  have a01 : tmpmatA 0 1 = 0 := rfl
  have a02 : tmpmatA 0 2 = -1 := rfl
  have a10 : tmpmatA 1 0 = 1 := rfl
  have a11 : tmpmatA 1 1 = 0 := rfl
  have a12 : tmpmatA 1 2 = -1 := rfl
  have a20 : tmpmatA 2 0 = 1 := rfl
  have a21 : tmpmatA 2 1 = 0 := rfl
  have a22 : tmpmatA 2 2 = -1 := rfl
  have b00 : tmpmatB 0 0 = -1 := rfl
  have b01 : tmpmatB 0 1 = -1 := rfl
  have b02 : tmpmatB 0 2 = -1 := rfl
  have b10 : tmpmatB 1 0 = 0 := rfl
  have b11 : tmpmatB 1 1 = 0 := rfl
  have b12 : tmpmatB 1 2 = 0 := rfl
  have b20 : tmpmatB 2 0 = 1 := rfl
  have b21 : tmpmatB 2 1 = 1 := rfl
  have b22 : tmpmatB 2 2 = 1 := rfl
  simp only [hidx, Fin.sum_univ_three, Fin.val_zero, Fin.val_one, Fin.val_two,
    a00, a01, a02, a10, a11, a12, a20, a21, a22, b00, b01, b02, b10, b11, b12, b20, b21, b22]
  rw [← abs_neg]
  congr 1
  ring

/-- C20: the horizontal-edge kernel is minus the transpose of the vertical-edge
kernel, and for every binary grid `b` of width `W` and height `H`, `convolve` applied
to the transposed grid (width `H`, height `W`) with the horizontal-edge kernel equals
`convolve` applied to `b` with the vertical-edge kernel. -/
theorem convolve_transpose (b : List Nat) (W H : Nat) (_hb : b.length = W * H) :
    tmpmatB = -tmpmatA.transpose
    ∧ (convolve (transpose_grid b W H) H W tmpmatB : K) = convolve b W H tmpmatA := by
  constructor
  · decide
  · rw [convolve_sum, convolve_sum, Finset.sum_comm, Nat.mul_comm H W]
    congr 2
    apply Finset.sum_congr rfl
    intro cy hcy
    apply Finset.sum_congr rfl
    intro cx hcx
    rw [Finset.mem_Icc] at hcx hcy
    exact spec_response_transpose b W H cy cx hcy hcx

/-- Witness of C20: a 4 x 3 grid. -/
theorem convolve_transpose_witness :
    [0, 0, 1, 0, 0, 1, 1, 0, 0, 0, 1, 1].length = 4 * 3
    ∧ tmpmatB = -tmpmatA.transpose
    ∧ (convolve (transpose_grid [0, 0, 1, 0, 0, 1, 1, 0, 0, 0, 1, 1] 4 3) 3 4 tmpmatB : ℚ)
        = convolve [0, 0, 1, 0, 0, 1, 1, 0, 0, 0, 1, 1] 4 3 tmpmatA :=
  ⟨by decide, convolve_transpose [0, 0, 1, 0, 0, 1, 1, 0, 0, 0, 1, 1] 4 3 (by decide)⟩

end Transpose

/-! ## Inverse transform -/

section Idct

/-- Product of two cosines of the transform as a sum of two cosines. -/
theorem cos_mul_cos_freq (x u u' : Nat) (h : u' ≤ u) :
    Real.cos ((2 * x + 1 : Nat) * (u : ℝ) * Real.pi / 16.0)
        * Real.cos ((2 * x + 1 : Nat) * (u' : ℝ) * Real.pi / 16.0)
      = (Real.cos ((2 * x + 1 : Nat) * ((u - u' : Nat) : ℝ) * Real.pi / 16.0)
          + Real.cos ((2 * x + 1 : Nat) * ((u + u' : Nat) : ℝ) * Real.pi / 16.0)) / 2 := by
  have e1 : ((2 * x + 1 : Nat) : ℝ) * ((u - u' : Nat) : ℝ) * Real.pi / 16.0
      = ((2 * x + 1 : Nat) : ℝ) * (u : ℝ) * Real.pi / 16.0
        - ((2 * x + 1 : Nat) : ℝ) * (u' : ℝ) * Real.pi / 16.0 := by
    rw [Nat.cast_sub h]; ring
  have e2 : ((2 * x + 1 : Nat) : ℝ) * ((u + u' : Nat) : ℝ) * Real.pi / 16.0
      = ((2 * x + 1 : Nat) : ℝ) * (u : ℝ) * Real.pi / 16.0
        + ((2 * x + 1 : Nat) : ℝ) * (u' : ℝ) * Real.pi / 16.0 := by
    push_cast; ring
  rw [e1, e2, Real.cos_sub, Real.cos_add]
  ring

/-- The cosine sum of the transform: 8 at frequency 0, else 0. -/
theorem cos_sum_freq (m : Nat) (hm : m < 16) :
    ∑ x ∈ Finset.range 8, Real.cos ((2 * x + 1 : Nat) * (m : ℝ) * Real.pi / 16.0)
      = if m = 0 then 8 else 0 := by
  by_cases h : m = 0
  · subst h
    rw [if_pos rfl]
    exact cos_sum_zero_freq
  · rw [if_neg h]
    exact cos_sum_eq_zero m (Nat.pos_of_ne_zero h) hm

/-- Sum over the samples of the product of two cosines of the transform. -/
theorem cos_mul_cos_sum (u u' : Nat) (hu : u < 8) (hu' : u' < 8) (h : u' ≤ u) :
    ∑ x ∈ Finset.range 8,
        Real.cos ((2 * x + 1 : Nat) * (u : ℝ) * Real.pi / 16.0)
          * Real.cos ((2 * x + 1 : Nat) * (u' : ℝ) * Real.pi / 16.0)
      = if u = u' then (if u = 0 then 8 else 4) else 0 := by
  simp only [cos_mul_cos_freq _ u u' h]
  rw [← Finset.sum_div, Finset.sum_add_distrib, cos_sum_freq (u - u') (by omega),
    cos_sum_freq (u + u') (by omega)]
  by_cases he : u = u'
  · subst he
    rw [if_pos (Nat.sub_self u), if_pos rfl]
    by_cases h0 : u = 0
    · rw [if_pos (by omega), if_pos h0]; norm_num
    · rw [if_neg (by omega), if_neg h0]; norm_num
  · rw [if_neg (by omega), if_neg (by omega), if_neg he]; norm_num

/-- The rows of the transform basis are orthonormal. -/
theorem dct_basis_rows (u u' : Nat) (hu : u < 8) (hu' : u' < 8) :
    ∑ x ∈ Finset.range 8,
        dct_basis Real.cos Real.sqrt Real.pi u x * dct_basis Real.cos Real.sqrt Real.pi u' x
      = if u = u' then 1 else 0 := by
  have hsum : ∑ x ∈ Finset.range 8,
        Real.cos ((2 * x + 1 : Nat) * (u : ℝ) * Real.pi / 16.0)
          * Real.cos ((2 * x + 1 : Nat) * (u' : ℝ) * Real.pi / 16.0)
      = if u = u' then (if u = 0 then 8 else 4) else 0 := by
    rcases Nat.le_total u' u with h | h
    · exact cos_mul_cos_sum u u' hu hu' h
    · have := cos_mul_cos_sum u' u hu' hu h
      simp only [mul_comm (Real.cos ((2 * _ + 1 : Nat) * (u : ℝ) * Real.pi / 16.0))]
      rw [this]
      by_cases he : u = u'
      · subst he; rfl
      · rw [if_neg he, if_neg (Ne.symm he)]
  have hfac : ∀ x, dct_basis Real.cos Real.sqrt Real.pi u x
        * dct_basis Real.cos Real.sqrt Real.pi u' x
      = COEFFS Real.sqrt u * COEFFS Real.sqrt u' / 4
        * (Real.cos ((2 * x + 1 : Nat) * (u : ℝ) * Real.pi / 16.0)
          * Real.cos ((2 * x + 1 : Nat) * (u' : ℝ) * Real.pi / 16.0)) := by
    intro x
    unfold dct_basis
    ring
  simp only [hfac]
  rw [← Finset.mul_sum, hsum]
  by_cases he : u = u'
  · subst he
    rw [if_pos rfl, if_pos rfl]
    by_cases h0 : u = 0
    · subst h0
      rw [if_pos rfl, COEFFS_zero_sq]; norm_num
    · rw [if_neg h0]
      unfold COEFFS
      rw [if_neg h0]; norm_num
  · rw [if_neg he, if_neg he, mul_zero]

/-- The transform matrix is orthogonal. -/
theorem dct_matrix_orthogonal :
    (dct_matrix Real.cos Real.sqrt Real.pi).transpose * dct_matrix Real.cos Real.sqrt Real.pi
      = 1 := by
  rw [Matrix.mul_eq_one_comm]
  ext u u'
  rw [Matrix.mul_apply, Matrix.one_apply]
  have h := dct_basis_rows u.val u'.val u.isLt u'.isLt
  rw [Finset.sum_range] at h
  simp only [dct_matrix, Matrix.of_apply, Matrix.transpose_apply]
  rw [h]
  by_cases he : u = u'
  · rw [if_pos he, if_pos (by rw [he])]
  · rw [if_neg he, if_neg (fun hc => he (Fin.ext hc))]

/-- The forward transform as a matrix product: `output[v][u]` is entry `(u, v)` of
`A * D * Aᵀ`, `D` being the input grid `input[x][y]`. -/
theorem dct_eq_matrix {K : Type} [LinearOrderedField K] (cos sqrt : K → K) (M_PI : K)
    (g : Nat → Nat → K) (u v : Fin 8) :
    dct cos sqrt M_PI g v.val u.val
      = (dct_matrix cos sqrt M_PI * grid_matrix g * (dct_matrix cos sqrt M_PI).transpose) u v := by
  rw [dct_eq_sum, Matrix.mul_apply, Finset.sum_range, Finset.mul_sum]
  apply Finset.sum_congr rfl
  intro y _
  rw [Matrix.mul_apply, Finset.sum_range, Finset.mul_sum, Finset.sum_mul]
  apply Finset.sum_congr rfl
  intro x _
  simp only [dct_matrix, grid_matrix, Matrix.of_apply, Matrix.transpose_apply, dct_basis]
  norm_num
  ring

/-- The clamping of `idct`. -/
theorem idct_clamp {K : Type} [LinearOrderedField K] (z : K) :
    (if (if z > 255.0 then 255.0 else z) < 0 then 0.0 else (if z > 255.0 then 255.0 else z))
      = max 0 (min 255 z) := by
  have e : (255.0 : K) = 255 := by norm_num
  have e0 : (0.0 : K) = 0 := by norm_num
  rw [e, e0]
  by_cases h1 : z > 255
  · rw [if_pos h1, if_neg (by norm_num), min_eq_left (le_of_lt h1), max_eq_right (by norm_num)]
  · rw [if_neg h1, min_eq_right (not_lt.1 h1)]
    by_cases h2 : z < 0
    · rw [if_pos h2, max_eq_left (le_of_lt h2)]
    · rw [if_neg h2, max_eq_right (not_lt.1 h2)]

/-- The inverse transform as a matrix product followed by the clamping: `output[x][y]`
is the clamped entry `(x, y)` of `Aᵀ * S * A`, `S` having `input[v][u]` at `(u, v)`. -/
theorem idct_eq_matrix {K : Type} [LinearOrderedField K] (cos sqrt : K → K) (M_PI : K)
    (S : Nat → Nat → K) (x y : Fin 8) :
    idct cos sqrt M_PI S x.val y.val
      = max 0 (min 255
          (((dct_matrix cos sqrt M_PI).transpose
              * Matrix.of (fun (u v : Fin 8) => S v.val u.val)
              * dct_matrix cos sqrt M_PI) x y)) := by
  unfold idct
  simp only [for_loop_sum]
  rw [idct_clamp]
  congr 2
  rw [Matrix.mul_apply, Finset.sum_range]
  have e : ∀ T : K, (0.0 + T) / 4.0 = T / 4 := by intro T; norm_num
  rw [e, Finset.sum_div]
  apply Finset.sum_congr rfl
  intro v _
  rw [Matrix.mul_apply, Finset.sum_mul, Finset.sum_div, Finset.sum_range]
  apply Finset.sum_congr rfl
  intro u _
  simp only [dct_matrix, Matrix.of_apply, Matrix.transpose_apply, dct_basis]
  ring

/-- Before the clamping, the inverse transform of the forward transform of a grid
is the grid. -/
theorem idct_dct_matrix (g : Nat → Nat → ℝ) :
    (dct_matrix Real.cos Real.sqrt Real.pi).transpose
        * Matrix.of (fun (u v : Fin 8) => dct Real.cos Real.sqrt Real.pi g v.val u.val)
        * dct_matrix Real.cos Real.sqrt Real.pi
      = grid_matrix g := by
  have hS : Matrix.of (fun (u v : Fin 8) => dct Real.cos Real.sqrt Real.pi g v.val u.val)
      = dct_matrix Real.cos Real.sqrt Real.pi * grid_matrix g
        * (dct_matrix Real.cos Real.sqrt Real.pi).transpose := by
    ext u v
    rw [Matrix.of_apply, dct_eq_matrix]
  rw [hS]
  calc (dct_matrix Real.cos Real.sqrt Real.pi).transpose
          * (dct_matrix Real.cos Real.sqrt Real.pi * grid_matrix g
            * (dct_matrix Real.cos Real.sqrt Real.pi).transpose)
          * dct_matrix Real.cos Real.sqrt Real.pi
      = ((dct_matrix Real.cos Real.sqrt Real.pi).transpose
            * dct_matrix Real.cos Real.sqrt Real.pi) * grid_matrix g
          * ((dct_matrix Real.cos Real.sqrt Real.pi).transpose
            * dct_matrix Real.cos Real.sqrt Real.pi) := by
        simp only [Matrix.mul_assoc]
    _ = grid_matrix g := by
        rw [dct_matrix_orthogonal, Matrix.one_mul, Matrix.mul_one]

/-- C19: the inverse transform undoes the forward transform up to its clamping: for
every real 8 x 8 grid `g`, `idct (dct g)` is `g` with every entry clamped to
`[0, 255]`, hence `g` itself at every entry that lies in `[0, 255]`; every output of
`idct` lies in `[0, 255]`. -/
theorem idct_dct (g : Nat → Nat → ℝ) (x y : Nat) (hx : x < 8) (hy : y < 8) :
    idct Real.cos Real.sqrt Real.pi (dct Real.cos Real.sqrt Real.pi g) x y
        = max 0 (min 255 (g x y))
    ∧ (0 ≤ g x y → g x y ≤ 255 →
        idct Real.cos Real.sqrt Real.pi (dct Real.cos Real.sqrt Real.pi g) x y = g x y)
    ∧ ∀ (S : Nat → Nat → ℝ) (x' y' : Nat), x' < 8 → y' < 8 →
        0 ≤ idct Real.cos Real.sqrt Real.pi S x' y'
        ∧ idct Real.cos Real.sqrt Real.pi S x' y' ≤ 255 := by
  have h1 : idct Real.cos Real.sqrt Real.pi (dct Real.cos Real.sqrt Real.pi g) x y
      = max 0 (min 255 (g x y)) := by
    have h := idct_eq_matrix Real.cos Real.sqrt Real.pi (dct Real.cos Real.sqrt Real.pi g)
      ⟨x, hx⟩ ⟨y, hy⟩
    rw [idct_dct_matrix] at h
    exact h
  refine ⟨h1, ?_, ?_⟩
  · intro h0 h255
    rw [h1, min_eq_right h255, max_eq_right h0]
  · intro S x' y' hx' hy'
    have h := idct_eq_matrix Real.cos Real.sqrt Real.pi S ⟨x', hx'⟩ ⟨y', hy'⟩
    simp only [] at h
    rw [h]
    exact ⟨le_max_left _ _, max_le (by norm_num) (min_le_left _ _)⟩

/-- Witness of C19: the sample grid at the cell (1, 2). -/
theorem idct_dct_witness :
    1 < 8 ∧ 2 < 8
    ∧ idct Real.cos Real.sqrt Real.pi (dct Real.cos Real.sqrt Real.pi sample_grid) 1 2
        = max 0 (min 255 (sample_grid 1 2))
    ∧ (0 ≤ (sample_grid 1 2 : ℝ) → (sample_grid 1 2 : ℝ) ≤ 255 →
        idct Real.cos Real.sqrt Real.pi (dct Real.cos Real.sqrt Real.pi sample_grid) 1 2
          = sample_grid 1 2)
    ∧ ∀ (S : Nat → Nat → ℝ) (x' y' : Nat), x' < 8 → y' < 8 →
        0 ≤ idct Real.cos Real.sqrt Real.pi S x' y'
        ∧ idct Real.cos Real.sqrt Real.pi S x' y' ≤ 255 :=
  ⟨by decide, by decide, idct_dct sample_grid 1 2 (by decide) (by decide)⟩

end Idct

/-! ## Layout of the stored coefficients -/

section YcbcrDct
variable {K : Type} [LinearOrderedField K]

/-- A loop nest that writes `f x y` to cell `x + (y << 3)` for `x, y < 8` fills the
first 64 cells with these values. -/
theorem write_back_spec {α : Type} [Zero α] (f : Nat → Nat → α) (l0 : List α)
    (hlen : 64 ≤ l0.length) :
    (for_loop 8 (fun y l => for_loop 8 (fun x l => l.set (x + (y <<< 3)) (f x y)) l) l0).length
      = l0.length
    ∧ ∀ x y, x < 8 → y < 8 →
        rd (for_loop 8 (fun y l => for_loop 8 (fun x l => l.set (x + (y <<< 3)) (f x y)) l) l0)
          (x + 8 * y) = f x y := by
  have h := for_loop_inv (fun n (l : List α) =>
      l.length = l0.length ∧ ∀ x y, x < 8 → y < n → rd l (x + 8 * y) = f x y)
    8 (fun y l => for_loop 8 (fun x l => l.set (x + (y <<< 3)) (f x y)) l) l0
    ⟨rfl, fun x y _ hy => absurd hy (Nat.not_lt_zero y)⟩
    (by
      intro n l hn ⟨hl, hprev⟩
      have hin := for_loop_inv (fun m (l' : List α) =>
          l'.length = l0.length
          ∧ (∀ x y, x < 8 → y < n → rd l' (x + 8 * y) = f x y)
          ∧ ∀ x, x < m → rd l' (x + 8 * n) = f x n)
        8 (fun x l => l.set (x + (n <<< 3)) (f x n)) l
        ⟨hl, hprev, fun x hx => absurd hx (Nat.not_lt_zero x)⟩
        (by
          intro m l' hm ⟨hl', hp', hrow⟩
          have hsh : n <<< 3 = 8 * n := by rw [Nat.shiftLeft_eq]; omega
          refine ⟨by rw [List.length_set, hl'], ?_, ?_⟩
          · intro x y hx hy
            rw [hsh, rd_set, if_neg (by omega)]
            exact hp' x y hx hy
          · intro x hx
            rw [hsh, rd_set]
            by_cases he : x = m
            · subst he
              rw [if_pos ⟨rfl, by omega⟩]
            · rw [if_neg (by omega)]
              exact hrow x (by omega))
      refine ⟨hin.1, ?_⟩
      intro x y hx hy
      rcases Nat.lt_or_ge y n with h1 | h1
      · exact hin.2.1 x y hx h1
      · have : y = n := by omega
        subst this
        exact hin.2.2 x hx)
  exact ⟨h.1, fun x y hx hy => h.2 x y hx hy⟩

/-- The cell `x + 8 y` of the buffer after `ycbcr_dct` holds `y_dct[x][y]`,
`cb_dct[x][y]` and `cr_dct[x][y]`. -/
theorem ycbcr_dct_cell (cos sqrt : K → K) (M_PI : K) (g : List (pixel_ycbcr K))
    (hg : 64 ≤ g.length) (x y : Nat) (hx : x < 8) (hy : y < 8) :
    rd (ycbcr_dct cos sqrt M_PI g) (x + 8 * y)
      = { y := dct cos sqrt M_PI (fun x y => (rd g (x + (y <<< 3))).y) x y
          cb := dct cos sqrt M_PI (fun x y => (rd g (x + (y <<< 3))).cb) x y
          cr := dct cos sqrt M_PI (fun x y => (rd g (x + (y <<< 3))).cr) x y } :=
  (write_back_spec (fun x y =>
    ({ y := dct cos sqrt M_PI (fun x y => (rd g (x + (y <<< 3))).y) x y
       cb := dct cos sqrt M_PI (fun x y => (rd g (x + (y <<< 3))).cb) x y
       cr := dct cos sqrt M_PI (fun x y => (rd g (x + (y <<< 3))).cr) x y } : pixel_ycbcr K))
    g hg).2 x y hx hy

/-- The coefficient of `dct` for one channel of a pixel grid, written with the
row-major cell index `x + 8 y`. -/
theorem dct_channel (cos sqrt : K → K) (M_PI : K) (g : List (pixel_ycbcr K))
    (ch : pixel_ycbcr K → K) (v u : Nat) :
    dct cos sqrt M_PI (fun x y => ch (rd g (x + (y <<< 3)))) v u
      = 0.25 * COEFFS sqrt u * COEFFS sqrt v *
          ∑ y ∈ Finset.range 8, ∑ x ∈ Finset.range 8,
            ch (rd g (x + 8 * y)) * cos ((2 * x + 1 : Nat) * (u : K) * M_PI / 16.0)
              * cos ((2 * y + 1 : Nat) * (v : K) * M_PI / 16.0) := by
  rw [dct_eq_sum]
  have hsh : ∀ y : Nat, y <<< 3 = 8 * y := by
    intro y; rw [Nat.shiftLeft_eq]; omega
  simp only [hsh]

/-- The coefficients that `ycbcr_dct` leaves in the cell `u + 8 v`: those that `dct`
writes to `output[u][v]`. -/
theorem ycbcr_dct_coeff (cos sqrt : K → K) (M_PI : K) (g : List (pixel_ycbcr K))
    (hg : g.length = 64) (u v : Nat) (hu : u < 8) (hv : v < 8) :
    (rd (ycbcr_dct cos sqrt M_PI g) (u + 8 * v)).y
        = 0.25 * COEFFS sqrt u * COEFFS sqrt v *
            ∑ y ∈ Finset.range 8, ∑ x ∈ Finset.range 8,
              (rd g (x + 8 * y)).y * cos ((2 * x + 1 : Nat) * (v : K) * M_PI / 16.0)
                * cos ((2 * y + 1 : Nat) * (u : K) * M_PI / 16.0)
    ∧ (rd (ycbcr_dct cos sqrt M_PI g) (u + 8 * v)).cb
        = 0.25 * COEFFS sqrt u * COEFFS sqrt v *
            ∑ y ∈ Finset.range 8, ∑ x ∈ Finset.range 8,
              (rd g (x + 8 * y)).cb * cos ((2 * x + 1 : Nat) * (v : K) * M_PI / 16.0)
                * cos ((2 * y + 1 : Nat) * (u : K) * M_PI / 16.0)
    ∧ (rd (ycbcr_dct cos sqrt M_PI g) (u + 8 * v)).cr
        = 0.25 * COEFFS sqrt u * COEFFS sqrt v *
            ∑ y ∈ Finset.range 8, ∑ x ∈ Finset.range 8,
              (rd g (x + 8 * y)).cr * cos ((2 * x + 1 : Nat) * (v : K) * M_PI / 16.0)
                * cos ((2 * y + 1 : Nat) * (u : K) * M_PI / 16.0) := by
  rw [ycbcr_dct_cell cos sqrt M_PI g (by omega) u v hu hv]
  refine ⟨?_, ?_, ?_⟩
  · rw [dct_channel cos sqrt M_PI g (fun p => p.y)]
    ring
  · rw [dct_channel cos sqrt M_PI g (fun p => p.cb)]
    ring
  · rw [dct_channel cos sqrt M_PI g (fun p => p.cr)]
    ring

/-- C18, amended: for every 8 x 8 three-channel grid `g` stored row-major, after
`ycbcr_dct` the cell at row-major index `u + 8 v` holds, for each channel
independently, the coefficient `output[u][v] = 0.25 C(u) C(v) sum_{x,y} g(x,y)
cos((2x+1) v pi/16) cos((2y+1) u pi/16)`: the column index `u` of the stored
coefficient grid is the vertical frequency and the row index `v` is the horizontal
frequency; each channel of the output depends only on that channel of the input. -/
theorem ycbcr_dct_layout (cos sqrt : K → K) (M_PI : K) (g : List (pixel_ycbcr K))
    (hg : g.length = 64) (u v : Nat) (hu : u < 8) (hv : v < 8) :
    (rd (ycbcr_dct cos sqrt M_PI g) (u + 8 * v)).y
        = 0.25 * COEFFS sqrt u * COEFFS sqrt v *
            ∑ y ∈ Finset.range 8, ∑ x ∈ Finset.range 8,
              (rd g (x + 8 * y)).y * cos ((2 * x + 1 : Nat) * (v : K) * M_PI / 16.0)
                * cos ((2 * y + 1 : Nat) * (u : K) * M_PI / 16.0)
    ∧ (rd (ycbcr_dct cos sqrt M_PI g) (u + 8 * v)).cb
        = 0.25 * COEFFS sqrt u * COEFFS sqrt v *
            ∑ y ∈ Finset.range 8, ∑ x ∈ Finset.range 8,
              (rd g (x + 8 * y)).cb * cos ((2 * x + 1 : Nat) * (v : K) * M_PI / 16.0)
                * cos ((2 * y + 1 : Nat) * (u : K) * M_PI / 16.0)
    ∧ (rd (ycbcr_dct cos sqrt M_PI g) (u + 8 * v)).cr
        = 0.25 * COEFFS sqrt u * COEFFS sqrt v *
            ∑ y ∈ Finset.range 8, ∑ x ∈ Finset.range 8,
              (rd g (x + 8 * y)).cr * cos ((2 * x + 1 : Nat) * (v : K) * M_PI / 16.0)
                * cos ((2 * y + 1 : Nat) * (u : K) * M_PI / 16.0) :=
  ycbcr_dct_coeff cos sqrt M_PI g hg u v hu hv

/-- Witness of C18 on the grid whose first column is 1. -/
theorem ycbcr_dct_layout_witness :
    (column_grid ℚ).length = 64 ∧ 1 < 8 ∧ 0 < 8
    ∧ (rd (ycbcr_dct (fun _ => 1) (fun _ => 1) 3 (column_grid ℚ)) (1 + 8 * 0)).y
        = 0.25 * COEFFS (fun _ => 1) 1 * COEFFS (fun _ => 1) 0 *
            ∑ y ∈ Finset.range 8, ∑ x ∈ Finset.range 8,
              (rd (column_grid ℚ) (x + 8 * y)).y
                * (fun _ => 1) ((2 * x + 1 : Nat) * ((0 : Nat) : ℚ) * 3 / 16.0)
                * (fun _ => 1) ((2 * y + 1 : Nat) * ((1 : Nat) : ℚ) * 3 / 16.0) :=
  ⟨by decide, by decide, by decide,
   (ycbcr_dct_layout (fun _ => 1) (fun _ => 1) 3 (column_grid ℚ) (by decide) 1 0
     (by decide) (by decide)).1⟩

/-- The luma of the grid whose first column is 1. -/
theorem column_grid_y (F : Type) [LinearOrderedField F] (x y : Nat) (hx : x < 8) (hy : y < 8) :
    (rd (column_grid F) (x + 8 * y)).y = if x = 0 then 1 else 0 := by
  unfold column_grid
  rw [rd_map_range _ _ _ (by omega)]
  have : (x + 8 * y) % 8 = x := by omega
  rw [this]
  by_cases h : x = 0
  · rw [if_pos h, if_pos h]
  · rw [if_neg h, if_neg h]; rfl

/-- In a row of the grid whose first column is 1, a weighted sum of the luma is the
weight of the first cell. -/
theorem column_grid_sum (y : Nat) (hy : y < 8) (F : Nat → ℝ) :
    ∑ x ∈ Finset.range 8, (rd (column_grid ℝ) (x + 8 * y)).y * F x = F 0 := by
  rw [Finset.sum_eq_single 0]
  · rw [column_grid_y ℝ 0 y (by decide) hy, if_pos rfl, one_mul]
  · intro x hx hne
    rw [Finset.mem_range] at hx
    rw [column_grid_y ℝ x y hx hy, if_neg hne, zero_mul]
  · intro h
    exact absurd (Finset.mem_range.2 (by decide)) h

/-- C18, counterexample: on the grid whose first column is 1, the cell at index
`1 + 8 * 0` after `ycbcr_dct` is not the coefficient of horizontal frequency 1 and
vertical frequency 0 (which is positive): it is the coefficient of horizontal
frequency 0 and vertical frequency 1, which is 0. -/
theorem ycbcr_dct_layout_counterexample :
    (rd (ycbcr_dct Real.cos Real.sqrt Real.pi (column_grid ℝ)) (1 + 8 * 0)).y
      ≠ 0.25 * COEFFS Real.sqrt 1 * COEFFS Real.sqrt 0 *
          ∑ y ∈ Finset.range 8, ∑ x ∈ Finset.range 8,
            (rd (column_grid ℝ) (x + 8 * y)).y
              * Real.cos ((2 * x + 1 : Nat) * ((1 : Nat) : ℝ) * Real.pi / 16.0)
              * Real.cos ((2 * y + 1 : Nat) * ((0 : Nat) : ℝ) * Real.pi / 16.0) := by
  have hlen : (column_grid ℝ).length = 64 := by simp [column_grid]
  have hcell := (ycbcr_dct_coeff Real.cos Real.sqrt Real.pi (column_grid ℝ) hlen 1 0
    (by decide) (by decide)).1
  have hL : ∑ y ∈ Finset.range 8, ∑ x ∈ Finset.range 8,
        (rd (column_grid ℝ) (x + 8 * y)).y
          * Real.cos ((2 * x + 1 : Nat) * ((0 : Nat) : ℝ) * Real.pi / 16.0)
          * Real.cos ((2 * y + 1 : Nat) * ((1 : Nat) : ℝ) * Real.pi / 16.0) = 0 := by
    rw [← cos_sum_eq_zero 1 (by decide) (by decide)]
    apply Finset.sum_congr rfl
    intro y hy
    rw [Finset.mem_range] at hy
    refine (Finset.sum_congr rfl (fun x _ => mul_assoc _ _ _)).trans
      ((column_grid_sum y hy _).trans ?_)
    simp
  have hR : ∑ y ∈ Finset.range 8, ∑ x ∈ Finset.range 8,
        (rd (column_grid ℝ) (x + 8 * y)).y
          * Real.cos ((2 * x + 1 : Nat) * ((1 : Nat) : ℝ) * Real.pi / 16.0)
          * Real.cos ((2 * y + 1 : Nat) * ((0 : Nat) : ℝ) * Real.pi / 16.0)
      = 8 * Real.cos (Real.pi / 16) := by
    have hrow : ∀ y ∈ Finset.range 8, ∑ x ∈ Finset.range 8,
        (rd (column_grid ℝ) (x + 8 * y)).y
          * Real.cos ((2 * x + 1 : Nat) * ((1 : Nat) : ℝ) * Real.pi / 16.0)
          * Real.cos ((2 * y + 1 : Nat) * ((0 : Nat) : ℝ) * Real.pi / 16.0)
        = Real.cos (Real.pi / 16) := by
      intro y hy
      rw [Finset.mem_range] at hy
      refine (Finset.sum_congr rfl (fun x _ => mul_assoc _ _ _)).trans
        ((column_grid_sum y hy _).trans ?_)
      norm_num
    rw [Finset.sum_congr rfl hrow]
    simp
  rw [hcell, hL, hR, mul_zero]
  have hcos : 0 < Real.cos (Real.pi / 16) := by
    apply Real.cos_pos_of_mem_Ioo
    constructor <;> linarith [Real.pi_pos]
  have hc0 : 0 < COEFFS Real.sqrt 0 := by
    unfold COEFFS
    rw [if_pos rfl]
    have : 0 < Real.sqrt 2.0 := Real.sqrt_pos.2 (by norm_num)
    positivity
  have hc1 : COEFFS Real.sqrt 1 = 1 := by
    unfold COEFFS; rw [if_neg (by decide)]; norm_num
  rw [hc1]
  have : 0 < 0.25 * 1 * COEFFS Real.sqrt 0 * (8 * Real.cos (Real.pi / 16)) := by positivity
  exact ne_of_lt this

end YcbcrDct

/-! ## Solid images -/

section SolidGray
variable {K : Type} [LinearOrderedField K]

end SolidGray
section SolidGrayEnd

end SolidGrayEnd

end ComiCops
